import Mathlib

/-!
Verification of the modelscore repository: a shallow embedding of the
rate-limited GitHub fetcher (`src/gh_sec2.py`), the JSON flattener
(`gh_sec2._flatten`), the Excel tab exporter (`src/excel_manager.py`),
and the mapping-file driver (`src/main.py`), together with proofs of the
behavioural properties stated in the specification.

Conventions of the embedding:
- Python machine effects (HTTP, the file system, wall-clock time) are
  oracles passed explicitly as arguments.
- Python exceptions are modelled with `Except`; `SystemExit` (a
  `BaseException` that is NOT caught by `except Exception`) is kept
  distinct from ordinary `Exception`s.
- Python `str` is `String`; `len`, slicing and `str.replace` act on the
  character list `String.data`, matching Python's code-point semantics.
- Decimal rendering of integers (Python f-strings and `str(i)`) is
  embedded by an explicit fuel-based decimal printer `natRepr` so that
  all definitions evaluate inside the kernel.
-/

/-! ### Decimal rendering of naturals (Python `str(i)` / f-string interpolation) -/

/-- Character for a single decimal digit. -/
def digitChar10 : Nat → Char
  | 0 => '0' | 1 => '1' | 2 => '2' | 3 => '3' | 4 => '4'
  | 5 => '5' | 6 => '6' | 7 => '7' | 8 => '8' | 9 => '9'
  | _ => '?'

/-- Fuel-based decimal digit list of a natural number, most significant first. -/
def natDigitsGo (fuel : Nat) (n : Nat) : List Char :=
  match fuel with
  | 0 => []
  | fuel + 1 =>
      if n < 10 then [digitChar10 n]
      else natDigitsGo fuel (n / 10) ++ [digitChar10 (n % 10)]

/-- Decimal representation of a natural number, as produced by Python `str(i)`. -/
def natRepr (n : Nat) : String := String.mk (natDigitsGo (n + 1) n)

/-- Numeric value of a digit character (used only to prove `natRepr` injective). -/
def digitVal (c : Char) : Nat := c.toNat - 48

/-- Value of a digit list read in base 10. -/
def digitsVal (l : List Char) : Nat := l.foldl (fun a c => 10 * a + digitVal c) 0

/-! ### Python JSON values and `gh_sec2._flatten`

`_flatten` (src/gh_sec2.py lines 84-100) recursively walks a parsed JSON
value: dict children extend the path with `.key` (or just `key` at the
empty prefix), list children extend it with `[index]`, and scalar leaves
emit one `(path, str(value))` pair.  The embedding `PyVal` covers the
JSON shapes the function distinguishes: `None`, booleans, integers,
strings, lists, dicts (floats are omitted: their text rendering is
floating-point formatting, outside this embedding). -/

mutual
inductive PyVal where
  | null
  | bool (b : Bool)
  | int (n : Int)
  | str (s : String)
  | list (elems : PyList)
  | dict (fields : PyFields)
deriving DecidableEq
inductive PyList where
  | nil
  | cons (head : PyVal) (tail : PyList)
deriving DecidableEq
inductive PyFields where
  | nil
  | cons (key : String) (val : PyVal) (tail : PyFields)
deriving DecidableEq
end

/-- Python `str(val)` for the scalar leaves handled by `_flatten._to_str`
(`None`, `bool`, `int`, `str`; composite values never reach `_to_str`
because `_flatten` recurses into them first). -/
def pyScalarStr : PyVal → String
  | .null => "None"
  | .bool b => if b then "True" else "False"
  | .int n => toString n
  | .str s => s
  | .list _ => ""
  | .dict _ => ""

mutual
/-- Embedding of `_flatten(prefix, obj)` from src/gh_sec2.py lines 84-100. -/
def flatten (pfx : String) : PyVal → List (String × String)
  | .null => [(pfx, "None")]
  | .bool b => [(pfx, if b then "True" else "False")]
  | .int n => [(pfx, toString n)]
  | .str s => [(pfx, s)]
  | .list es => flattenL pfx 0 es
  | .dict fs => flattenD pfx fs
/-- The `enumerate` loop of `_flatten` over a list, starting at index `i`:
`new_prefix = f"{prefix}[{i}]"` (identical when `prefix` is empty). -/
def flattenL (pfx : String) (i : Nat) : PyList → List (String × String)
  | .nil => []
  | .cons v rest =>
      flatten (pfx ++ "[" ++ natRepr i ++ "]") v ++ flattenL pfx (i + 1) rest
/-- The `items` loop of `_flatten` over a dict:
`new_prefix = f"{prefix}.{k}" if prefix else str(k)`. -/
def flattenD (pfx : String) : PyFields → List (String × String)
  | .nil => []
  | .cons k v rest =>
      flatten (if pfx = "" then k else pfx ++ "." ++ k) v ++ flattenD pfx rest
end

mutual
/-- String coercion of scalar leaves: replaces every scalar leaf of a JSON
value by its `str()` rendering, leaving the dict/list structure intact.
This is the "modulo string coercion" equivalence of the round-trip law. -/
def coerceV : PyVal → PyVal
  | .null => .str "None"
  | .bool b => .str (if b then "True" else "False")
  | .int n => .str (toString n)
  | .str s => .str s
  | .list es => .list (coerceL es)
  | .dict fs => .dict (coerceF fs)
def coerceL : PyList → PyList
  | .nil => .nil
  | .cons v rest => .cons (coerceV v) (coerceL rest)
def coerceF : PyFields → PyFields
  | .nil => .nil
  | .cons k v rest => .cons k (coerceV v) (coerceF rest)
end

/-- Keys of a dict, in order. -/
def fieldKeys : PyFields → List String
  | .nil => []
  | .cons k _ rest => k :: fieldKeys rest

/-- A dict key is unambiguous for path reconstruction when it is nonempty
and contains neither `.` nor `[` (the two characters `_flatten` uses as
path separators). -/
def goodKey (k : String) : Bool :=
  decide (k ≠ "") && k.data.all (fun c => decide (c ≠ '.') && decide (c ≠ '['))

mutual
/-- Reconstructible JSON values: every dict key is unambiguous, dict keys
are distinct (as in a Python dict), and no dict or list is empty. -/
def goodV : PyVal → Bool
  | .null | .bool _ | .int _ | .str _ => true
  | .list es => decide (es ≠ .nil) && goodL es
  | .dict fs =>
      decide (fs ≠ .nil) && decide ((fieldKeys fs).Nodup) && goodF fs
def goodL : PyList → Bool
  | .nil => true
  | .cons v rest => goodV v && goodL rest
def goodF : PyFields → Bool
  | .nil => true
  | .cons k v rest => goodKey k && goodV v && goodF rest
end

/-- First counterexample pair for the unrestricted round-trip law: a dict
key containing a dot collides with genuine nesting. -/
def cexDotKey : PyVal := .dict (.cons "a.b" (.str "1") .nil)

/-- Nested-dict value flattening identically to `cexDotKey`. -/
def cexNested : PyVal := .dict (.cons "a" (.dict (.cons "b" (.str "1") .nil)) .nil)

/-- Second counterexample pair: the empty dict and the empty list both
flatten to the empty pair list. -/
def cexEmptyDict : PyVal := .dict .nil

/-- Empty list, flattening identically to the empty dict. -/
def cexEmptyList : PyVal := .list .nil

/-! ### Path-structure predicates for the round-trip proof -/

/-- The child prefix `_flatten` uses for dict key `k`:
`f"{prefix}.{k}" if prefix else str(k)`. -/
def childPfx (pfx k : String) : String := if pfx = "" then k else pfx ++ "." ++ k

/-- Shape class of a JSON value: 0 scalar, 1 list, 2 dict. -/
def shapeTag : PyVal → Nat
  | .null | .bool _ | .int _ | .str _ => 0
  | .list _ => 1
  | .dict _ => 2

/-- Scalar test. -/
def isScalar : PyVal → Bool
  | .null | .bool _ | .int _ | .str _ => true
  | .list _ | .dict _ => false

/-- A path remainder is either empty (the path ends at this prefix) or
continues with one of the two separator characters `.` and `[`. -/
def HeadBad (t : List Char) : Prop :=
  t = [] ∨ ∃ c t2, t = c :: t2 ∧ (c = '.' ∨ c = '[')

/-- `SegPre q p` says path `p` extends prefix `q` at a segment boundary:
`p` is `q` followed by nothing or by a separator-headed remainder. -/
def SegPre (q p : String) : Prop :=
  ∃ t, p.data = q.data ++ t ∧ HeadBad t

/-! ### The rate-limited fetcher `_req` and `safe_get_json` (src/gh_sec2.py)

HTTP and the clock are an oracle: attempt `i` either raises a
transport-level exception (`requests` timeout / connection error, an
ordinary `Exception`) or yields a response, together with the value of
`int(time.time())` at that attempt. -/

/-- The parts of a `requests.Response` that `_req`/`safe_get_json` read.
`rlRemaining` is the raw `X-RateLimit-Remaining` header (compared against
the string `"0"`); `rlReset` is the parsed `X-RateLimit-Reset` header
(`int(h.get(...,"0") or 0)`, absent header meaning `0`); `body` is the
result of `resp.json()` (`Except.error` when the body is not JSON and the
call raises); `text` is `resp.text`. -/
structure HttpResponse where
  status : Nat
  rlRemaining : Option String
  rlReset : Option Int
  body : Except Unit PyVal
  text : String

/-- One attempt of the oracle: the outcome of `SESSION.request` and the
current time at that attempt. -/
structure Attempt where
  result : Except String HttpResponse
  now : Int

/-- The retry test of `_req` (line 39):
`resp.status_code == 403 and resp.headers.get("X-RateLimit-Remaining") == "0"`. -/
def shouldRetry (r : HttpResponse) : Bool :=
  r.status == 403 && r.rlRemaining == some "0"

/-- The retry condition as the specification states it: status 403 OR 429
together with a zero-remaining rate-limit header. -/
def specRetryCond (r : HttpResponse) : Bool :=
  (r.status == 403 || r.status == 429) && r.rlRemaining == some "0"

/-- Sleep duration of one backoff (lines 40-42):
`sleep_for = max(0, reset_epoch - int(time.time()) + 1)`,
`time.sleep(min(sleep_for, 60))`. -/
def sleepFor (r : HttpResponse) (now : Int) : Int :=
  min (max 0 (r.rlReset.getD 0 - now + 1)) 60

/-- Observable outcome of one `_req` call: the returned response (or the
propagated transport exception), how many HTTP attempts were made, and the
sleep durations in order. -/
structure ReqTrace where
  response : Except String HttpResponse
  attempts : Nat
  sleeps : List Int

/-- The `for _ in range(3)` loop of `_req` with `fuel` iterations left,
`i` attempts already made and `sls` the sleeps so far (reversed).  A
transport exception propagates immediately; a retryable response sleeps
and continues (returning the response if the loop is exhausted); any other
response is returned at once. -/
def reqFrom (o : Nat → Attempt) : Nat → Nat → List Int → ReqTrace
  | 0, i, sls => { response := Except.error "", attempts := i, sleeps := sls.reverse }
  | fuel + 1, i, sls =>
    match (o i).result with
    | Except.error e => { response := Except.error e, attempts := i + 1, sleeps := sls.reverse }
    | Except.ok r =>
      if shouldRetry r then
        let s := sleepFor r (o i).now
        if fuel = 0 then
          { response := Except.ok r, attempts := i + 1, sleeps := (s :: sls).reverse }
        else reqFrom o fuel (i + 1) (s :: sls)
      else { response := Except.ok r, attempts := i + 1, sleeps := sls.reverse }

/-- Embedding of `_req` (src/gh_sec2.py lines 36-46): at most 3 attempts. -/
def req (o : Nat → Attempt) : ReqTrace := reqFrom o 3 0 []

/-- Exceptions that can escape `safe_get_json`: a transport-level
`requests` exception propagated unchanged from `_req`, or the JSON decode
error raised by `resp.json()` on a 2xx response with a non-JSON body
(neither is caught: the function only catches `requests.HTTPError`). -/
inductive PyErr where
  | transport (msg : String)
  | jsonDecode
deriving DecidableEq

/-- Lookup in a dict, as Python `dict.get`. -/
def fieldsGet : PyFields → String → Option PyVal
  | .nil, _ => none
  | .cons k v rest, key => if k = key then some v else fieldsGet rest key

/-- The `str(e)` text of a `requests.HTTPError` (status-dependent,
otherwise opaque to the caller). -/
def httpErrorText (status : Nat) : String := natRepr status ++ " Error"

/-- Error message extraction of `safe_get_json`'s `except` branch:
`j = resp.json()` falling back to `{"message": resp.text}`, then
`msg = j.get("message") if isinstance(j, dict) else str(e)`. -/
def respMessage (r : HttpResponse) : Option PyVal :=
  match r.body with
  | Except.ok (PyVal.dict fs) => fieldsGet fs "message"
  | Except.ok _ => some (PyVal.str (httpErrorText r.status))
  | Except.error _ => some (PyVal.str r.text)

/-- Embedding of `safe_get_json` (src/gh_sec2.py lines 49-60).  The value
is the `(json_or_none, status, message_or_none)` tuple; `Except.error`
models an exception escaping to the caller.  `raise_for_status` raises
exactly for statuses in `[400, 600)`. -/
def safe_get_json (o : Nat → Attempt) : Except PyErr (Option PyVal × Nat × Option PyVal) :=
  match (req o).response with
  | Except.error e => Except.error (PyErr.transport e)
  | Except.ok r =>
    if 400 ≤ r.status ∧ r.status < 600 then
      Except.ok (none, r.status, respMessage r)
    else
      match r.body with
      | Except.error _ => Except.error PyErr.jsonDecode
      | Except.ok j => Except.ok (some j, r.status, none)

/-! ### The driver (`src/main.py`) and the uncatchable `SystemExit`

`collect` (src/gh_sec2.py lines 121-129) raises `SystemExit` when the
repository fetch yields no truthy JSON.  `SystemExit` derives from
`BaseException`, so the `except Exception` handlers in
`process_model` (src/main.py lines 96-117) and
`ModelProcessor._process_github_security` do not catch it. -/

/-- Python exceptions split by what `except Exception` catches:
`exn` is an ordinary `Exception`; `systemExit` is `SystemExit`. -/
inductive Exc where
  | systemExit (msg : String)
  | exn (msg : String)
deriving DecidableEq

/-- An `except Exception` handler around a computation: it catches `exn`
and replaces the result, and lets `systemExit` propagate. -/
def pyCatch (act : Except Exc α) (handler : String → α) : Except Exc α :=
  match act with
  | Except.error (Exc.exn m) => Except.ok (handler m)
  | other => other

/-- Python truthiness of an optional JSON value (`if not repo_json`). -/
def pyTruthy : Option PyVal → Bool
  | none => false
  | some .null => false
  | some (.bool b) => b
  | some (.int n) => decide (n ≠ 0)
  | some (.str s) => decide (s ≠ "")
  | some (.list es) => decide (es ≠ .nil)
  | some (.dict fs) => decide (fs ≠ .nil)

/-- Python `f"{x}"` of an optional value (`None` renders as "None"). -/
def pyShowOpt : Option PyVal → String
  | none => "None"
  | some v => pyScalarStr v

/-- Head of `collect` (src/gh_sec2.py lines 126-129): fetch the repo JSON
and `raise SystemExit(...)` when it is not truthy; `fetchRepo` is the
outcome of `safe_get_json(repo_url)` and `rest` the remainder of the
function (whose own failures are ordinary `Exception`s). -/
def collectRun (fetchRepo : Except Exc (Option PyVal × Nat × Option PyVal))
    (rest : Except Exc Unit) : Except Exc Unit :=
  match fetchRepo with
  | Except.error e => Except.error e
  | Except.ok (j, code, err) =>
      if pyTruthy j then rest
      else Except.error (Exc.systemExit
        ("Failed to fetch repo: " ++ natRepr code ++ " " ++ pyShowOpt err))

/-- Per-entry oracle for the driver: outcome of the HuggingFace section,
the GitHub repo string, the outcome of the repo fetch inside `collect`,
and the outcome of the rest of the GitHub section. -/
structure EntryOracle where
  hfSteps : Except Exc Unit
  ghRepo : String
  ghFetch : Except Exc (Option PyVal × Nat × Option PyVal)
  ghRest : Except Exc Unit

/-- The GitHub part of `process_model` (src/main.py lines 103-114): the
inner `try`/`except Exception` around `query_github_security`, guarded by
the `'/' in github_repo` check. -/
def githubSection (e : EntryOracle) : Except Exc Unit :=
  if e.ghRepo.data.contains '/' then
    pyCatch (collectRun e.ghFetch e.ghRest) (fun _ => ())
  else Except.ok ()

/-- Embedding of `process_model` (src/main.py lines 51-117): the outer
`try`/`except Exception` around the HuggingFace section followed by the
GitHub section. -/
def process_model (e : EntryOracle) : Except Exc Unit :=
  pyCatch
    (match e.hfSteps with
     | Except.error ex => Except.error ex
     | Except.ok _ => githubSection e)
    (fun _ => ())

/-- The `for` loop of `main` (src/main.py lines 119-137): entries are
processed in order with no surrounding handler, so any exception escaping
`process_model` aborts the run.  The result counts fully processed
entries. -/
def mainRun : List EntryOracle → Except Exc Nat
  | [] => Except.ok 0
  | e :: rest =>
    match process_model e with
    | Except.error ex => Except.error ex
    | Except.ok _ =>
      match mainRun rest with
      | Except.error ex => Except.error ex
      | Except.ok n => Except.ok (n + 1)

/-- Failing driver input for the SystemExit bug: the first entry's GitHub
repository fetch returns a 404 with no JSON, the second entry is fully
healthy. -/
def badFetchEntry : EntryOracle :=
  { hfSteps := Except.ok ()
    ghRepo := "owner1/repo1"
    ghFetch := Except.ok (none, 404, some (PyVal.str "Not Found"))
    ghRest := Except.ok () }

/-- A fully healthy driver entry. -/
def okEntry : EntryOracle :=
  { hfSteps := Except.ok ()
    ghRepo := "owner2/repo2"
    ghFetch := Except.ok (some (PyVal.dict (PyFields.cons "id" (PyVal.int 1) PyFields.nil)), 200, none)
    ghRest := Except.ok () }

/-- An entry whose GitHub section raises an ordinary `Exception`. -/
def exnEntry : EntryOracle :=
  { hfSteps := Except.ok ()
    ghRepo := "owner3/repo3"
    ghFetch := Except.error (Exc.exn "connection timeout")
    ghRest := Except.ok () }

/-! ### The Excel exporter (`src/excel_manager.py`) -/

/-- The characters Excel forbids in tab names, in the order the source
replaces them (`invalid_chars` in `_sanitize_tab_name`). -/
def invalidChars : List Char := ['/', '\\', '?', '*', '[', ']']

/-- Python `s.replace(c, '_')` for a single-character pattern. -/
def replaceChar (s : String) (c : Char) : String :=
  String.mk (s.data.map (fun x => if x = c then '_' else x))

/-- Embedding of `ExcelManager._sanitize_tab_name` (src/excel_manager.py
lines 42-70): replace forbidden characters by `_`, truncate to 31
characters, substitute "Sheet" for the empty result. -/
def sanitizeTabName (name : String) : String :=
  let s1 := invalidChars.foldl replaceChar name
  let s2 := if 31 < s1.data.length then String.mk (s1.data.take 31) else s1
  if s2 = "" then "Sheet" else s2

/-- The collision loop of `create_tab`
(`while sanitized_tab_name in [sheet.title ...]`), with enough fuel to
cover any workbook: candidate `orig_k`, `orig_(k+1)`, ... until one is
not an existing title. -/
def freshTitle (existing : List String) (orig : String) : Nat → Nat → String
  | 0, k => orig ++ "_" ++ natRepr k
  | fuel + 1, k =>
    let cand := orig ++ "_" ++ natRepr k
    if existing.contains cand then freshTitle existing orig fuel (k + 1) else cand

/-- The tab title chosen by `create_tab` (src/excel_manager.py lines
72-91) for request `requested` given the existing sheet titles. -/
def createTabTitle (existing : List String) (requested : String) : String :=
  let s := sanitizeTabName requested
  if existing.contains s then freshTitle existing s (existing.length + 1) 1 else s

/-- A requested tab name of exactly 31 allowed characters. -/
def longName : String := "aaaaaaaaaaaaaaaaaaaaaaaaaaaaaaa"

/-- Cell values as written by the exporter: strings, numbers, booleans,
Python `None`, and the pandas `NaN` filled in for a key missing from a
record. -/
inductive Cell where
  | str (s : String)
  | int (n : Int)
  | bool (b : Bool)
  | null
  | nan
deriving DecidableEq

/-- One record: an insertion-ordered Python dict of column name to cell. -/
abbrev RowRec := List (String × Cell)

/-- Key-insertion step of `pd.DataFrame(data)` column construction: keys
are appended in order of first appearance. -/
def addKeys (acc : List String) (r : RowRec) : List String :=
  r.foldl (fun a kv => if a.contains kv.1 then a else a ++ [kv.1]) acc

/-- Columns of `pd.DataFrame(data)` for a list of dicts: the union of the
records' keys in order of first appearance. -/
def dfColumns (data : List RowRec) : List String := data.foldl addKeys []

/-- Value of record `r` in column `k`; a missing key becomes pandas `NaN`. -/
def lookupCell (r : RowRec) (k : String) : Cell :=
  match r.find? (fun kv => kv.1 == k) with
  | some kv => kv.2
  | none => Cell.nan

/-- One DataFrame row aligned to the column list (what
`worksheet.append(list(row))` writes for one record). -/
def alignRow (cols : List String) (r : RowRec) : List Cell :=
  cols.map (lookupCell r)

/-- Embedding of the row-writing part of `create_tab` (src/excel_manager.py
lines 93-111): for nonempty data, the header row (explicit headers if
given, else the DataFrame columns) followed by one aligned row per
record; for empty data only a warning is logged and nothing is written. -/
def createTabRows (data : List RowRec) (headers : Option (List String)) : List (List Cell) :=
  match data with
  | [] => []
  | _ :: _ =>
    let cols := dfColumns data
    let headerRow := (match headers with | some hs => hs | none => cols).map Cell.str
    headerRow :: data.map (alignRow cols)

/-- Python `str(value)` for a cell, as used by
`create_tab_from_key_value_pairs`. -/
def cellStr : Cell → String
  | .str s => s
  | .int n => toString n
  | .bool b => if b then "True" else "False"
  | .null => "None"
  | .nan => "nan"

/-- Embedding of `create_tab_from_key_value_pairs` (src/excel_manager.py
lines 113-123): each pair becomes a `{"Key": key, "Value": str(value)}`
record, written with explicit headers `["Key", "Value"]`. -/
def createTabKVRows (kvs : List (String × Cell)) : List (List Cell) :=
  createTabRows
    (kvs.map (fun kv => [("Key", Cell.str kv.1), ("Value", Cell.str (cellStr kv.2))]))
    (some ["Key", "Value"])

/-- The claim's reading of `create_tab`: header row is the explicit
headers if given, else the key set of the FIRST record, and every data
cell is coerced to text.  This definition follows the specification's
words, to be compared with `createTabRows` from the source. -/
def specCreateTabRows (data : List RowRec) (headers : Option (List String)) : List (List Cell) :=
  match data with
  | [] => []
  | r0 :: _ =>
    let hs := match headers with
      | some hs => hs
      | none => r0.map (fun kv : String × Cell => kv.1)
    (hs.map Cell.str) ::
      data.map (fun r => r.map (fun kv : String × Cell => Cell.str (cellStr kv.2)))

/-- Heterogeneous-key input on which `create_tab` and the claimed
behaviour disagree. -/
def cexTabData : List RowRec := [[("a", Cell.int 1)], [("b", Cell.str "y")]]

/-! ### The mapping-file parser (`src/main.py read_model_list`) -/

/-- Python whitespace stripped by `str.strip()`. -/
def isPySpace (c : Char) : Bool :=
  c == ' ' || c == '\t' || c == '\n' || c == '\r' || c == '\x0b' || c == '\x0c'

/-- Embedding of Python `line.strip()`. -/
def pyStrip (s : String) : String :=
  String.mk (((s.data.dropWhile isPySpace).reverse.dropWhile isPySpace).reverse)

/-- Python `line.startswith('#')`. -/
def startsWithHash (s : String) : Bool :=
  match s.data with
  | c :: _ => c == '#'
  | [] => false

/-- The comma splitter of Python `line.split(',')`, accumulator version. -/
def splitCommaGo : List Char → List Char → List String
  | [], acc => [String.mk acc.reverse]
  | c :: rest, acc =>
      if c = ',' then String.mk acc.reverse :: splitCommaGo rest []
      else splitCommaGo rest (c :: acc)

/-- Python `s.split(',')`. -/
def splitComma (s : String) : List String := splitCommaGo s.data []

/-- The skip test of the loop: `if not line or line.startswith('#')`,
applied to the stripped line. -/
def lineSkipped (t : String) : Bool := t == "" || startsWithHash t

/-- The body of the `for line_num, line in enumerate(f, 1)` loop of
`read_model_list` (src/main.py lines 24-40): `acc` holds parsed pairs and
`warns` the line numbers of malformed lines (both reversed). -/
def readLinesGo : List String → Nat → List (String × String) → List Nat →
    List (String × String) × List Nat
  | [], _, acc, warns => (acc.reverse, warns.reverse)
  | l :: rest, n, acc, warns =>
    let t := pyStrip l
    if lineSkipped t then readLinesGo rest (n + 1) acc warns
    else
      match splitComma t with
      | [a, b] => readLinesGo rest (n + 1) ((pyStrip a, pyStrip b) :: acc) warns
      | _ => readLinesGo rest (n + 1) acc (n :: warns)

/-- Parsed pairs and warned line numbers of `read_model_list` applied to
the given file lines. -/
def readModelLines (lines : List String) : List (String × String) × List Nat :=
  readLinesGo lines 1 [] []

/-- Per-line classification written from the specification: blank and
`#`-prefixed lines are ignored, a line splitting on `,` into exactly two
fields yields one stripped pair, anything else is malformed. -/
def parseMapLine (l : String) : Option (String × String) :=
  let t := pyStrip l
  if lineSkipped t then none
  else
    match splitComma t with
    | [a, b] => some (pyStrip a, pyStrip b)
    | _ => none

/-- A line is malformed when it is neither ignored nor well-formed. -/
def isMalformedLine (l : String) : Bool :=
  let t := pyStrip l
  !lineSkipped t &&
    (match splitComma t with
     | [_, _] => false
     | _ => true)

/-- Failure modes of opening/reading the mapping file; both are caught by
`read_model_list`'s handlers. -/
inductive FsErr where
  | fileNotFound
  | ioError (msg : String)
deriving DecidableEq

/-- Embedding of `read_model_list` (src/main.py lines 12-49) with the file
system as an oracle: the `try`/`except FileNotFoundError`/`except
Exception` handlers both print an error and return `[]`. -/
def read_model_list (file : Except FsErr (List String)) : List (String × String) :=
  match file with
  | Except.error _ => []
  | Except.ok lines => (readModelLines lines).1

/-! ### Concrete inputs used in counterexamples and witnesses -/

/-- A 429 response whose rate-limit quota is exhausted. -/
def resp429 : HttpResponse :=
  { status := 429, rlRemaining := some "0", rlReset := some 1000
    body := Except.ok (PyVal.dict PyFields.nil), text := "rate limited" }

/-- Oracle that always answers with `resp429`. -/
def oracle429 : Nat → Attempt := fun _ => { result := Except.ok resp429, now := 990 }

/-- Oracle whose every attempt fails at the transport level. -/
def oracleTimeout : Nat → Attempt :=
  fun _ => { result := Except.error "connection timed out", now := 0 }

/-- Oracle whose every attempt fails with a DNS resolution error. -/
def oracleDnsFail : Nat → Attempt :=
  fun _ => { result := Except.error "name resolution failed", now := 0 }

/-- A rate-limited 403 response resetting five seconds after `now = 100`. -/
def resp403 : HttpResponse :=
  { status := 403, rlRemaining := some "0", rlReset := some 105
    body := Except.ok (PyVal.dict PyFields.nil), text := "" }

/-- A rate-limited 403 response whose reset lies far in the future. -/
def resp403Far : HttpResponse :=
  { status := 403, rlRemaining := some "0", rlReset := some 100000
    body := Except.ok (PyVal.dict PyFields.nil), text := "" }

/-- A successful 200 response. -/
def resp200 : HttpResponse :=
  { status := 200, rlRemaining := some "4999", rlReset := none
    body := Except.ok (PyVal.dict (PyFields.cons "ok" (PyVal.bool true) PyFields.nil))
    text := "" }

/-- Oracle: first attempt rate limited with `reset = now + 5`, second
attempt succeeds. -/
def oracleBackoff : Nat → Attempt := fun i =>
  if i = 0 then { result := Except.ok resp403, now := 100 }
  else { result := Except.ok resp200, now := 107 }

/-- Oracle: first attempt rate limited with a far-future reset, second
attempt succeeds. -/
def oracleBackoffFar : Nat → Attempt := fun i =>
  if i = 0 then { result := Except.ok resp403Far, now := 100 }
  else { result := Except.ok resp200, now := 160 }

/-- A 404 response with a JSON error body. -/
def resp404 : HttpResponse :=
  { status := 404, rlRemaining := some "4999", rlReset := none
    body := Except.ok (PyVal.dict (PyFields.cons "message" (PyVal.str "Not Found") PyFields.nil))
    text := "{}" }

/-- Oracle that always answers 404. -/
def oracle404 : Nat → Attempt := fun _ => { result := Except.ok resp404, now := 0 }

/-- Good JSON values with equal flattenings used to witness the amended
round-trip law: an integer leaf and its string coercion. -/
def wIntLeaf : PyVal :=
  .dict (.cons "a" (.int 1) (.cons "b" (.list (.cons (.str "x") .nil)) .nil))

/-- The same value with the integer leaf already written as a string. -/
def wStrLeaf : PyVal :=
  .dict (.cons "a" (.str "1") (.cons "b" (.list (.cons (.str "x") .nil)) .nil))

/-- Key-value input for the exporter witness. -/
def wKVData : List (String × Cell) := [("modelId", Cell.str "m"), ("downloads", Cell.int 7)]

/-- Record input with consistent keys for the exporter witness. -/
def wTabData : List RowRec :=
  [[("Scope", Cell.str "Repository"), ("Key", Cell.str "repo.name"), ("Value", Cell.str "x")],
   [("Scope", Cell.str "Owner/Org"), ("Key", Cell.str "owner.login"), ("Value", Cell.str "y")]]

/-! ## Theorems -/

/-! ### Claim C1: per-entry failure isolation in the driver (code bug) -/

/-- Claim C1 (code bug): a failed GitHub repository fetch makes `collect`
raise `SystemExit`, which the `except Exception` handlers of
`process_model` do not catch, so the run aborts and the next mapping
entry is never processed — while an ordinary `Exception` in the GitHub
section IS caught and the driver does proceed to the next entry. -/
theorem mainRun_aborts_on_failed_repo_fetch :
    mainRun [badFetchEntry, okEntry] =
      Except.error (Exc.systemExit "Failed to fetch repo: 404 Not Found") ∧
    mainRun [exnEntry, okEntry] = Except.ok 2 := by
  constructor
  · rfl
  · rfl

/-! ### Claim C2: retry condition of `_req` -/

/-- Claim C2, counterexample to the stated retry condition: a 429
response with a zero-remaining rate-limit header satisfies the
specification's retry condition, yet `_req` returns it after a single
attempt without retrying (the code tests `status == 403` only). -/
theorem req_does_not_retry_429 :
    specRetryCond resp429 = true ∧
    (req oracle429).attempts = 1 ∧
    (req oracle429).response = Except.ok resp429 := by
  refine ⟨rfl, rfl, rfl⟩

/-! ### Claim C3: transport-level failures -/

/-- Claim C3, counterexample: on a transport-level failure `_req` raises
the exception to the caller on the very first attempt — `safe_get_json`
propagates it (it catches only `requests.HTTPError`) instead of returning
a failure tuple, and no further attempts are made. -/
theorem safe_get_json_raises_on_transport_failure :
    safe_get_json oracleTimeout = Except.error (PyErr.transport "connection timed out") ∧
    (req oracleTimeout).attempts = 1 := by
  refine ⟨rfl, rfl⟩

/-! ### Claim C4: tab-name invariant (code bug) -/

/-- Claim C4 (code bug): two `create_tab` calls requesting the same
31-character name give the first tab the sanitized name unmodified and
the second the suffixed name `name_1` — which is 33 characters long,
violating the 31-character bound that `_sanitize_tab_name` itself
enforces and its comments state as an Excel rule. -/
theorem createTab_suffix_exceeds_31_chars :
    createTabTitle [] longName = longName ∧
    createTabTitle [longName] longName = longName ++ "_1" ∧
    (createTabTitle [longName] longName).data.length = 33 ∧
    createTabTitle [longName] longName ≠ longName := by
  refine ⟨by decide, by decide, by decide, by decide⟩

/-! ### Claim C5: flatten round-trip (counterexample part) -/

/-- Claim C5, counterexample to the unrestricted round-trip law: the dict
with the dotted key `"a.b"` and the nested dict `{"a": {"b": ...}}`
flatten to the same pair list while being different values even after
string coercion of leaves, and the empty dict and empty list both flatten
to the empty list — so no reconstruction function can invert `_flatten`
on all dict/list/scalar values. -/
theorem flatten_not_injective_unrestricted :
    (flatten "" cexDotKey = flatten "" cexNested ∧
      coerceV cexDotKey ≠ coerceV cexNested) ∧
    (flatten "" cexEmptyDict = flatten "" cexEmptyList ∧
      coerceV cexEmptyDict ≠ coerceV cexEmptyList) := by
  refine ⟨⟨by decide, by decide⟩, ⟨rfl, by decide⟩⟩

/-! ### Claim C8: `create_tab` rows (counterexample part) -/

/-- Claim C8, counterexample: on records with heterogeneous keys the
header written by `create_tab` is the union of all record keys (pandas
DataFrame columns), not the key set of the first record, and data cells
keep their original types (here the integer 1 and a NaN fill) rather
than being coerced to text. -/
theorem createTab_rows_differ_from_claimed :
    createTabRows cexTabData none =
      [[Cell.str "a", Cell.str "b"],
       [Cell.int 1, Cell.nan],
       [Cell.nan, Cell.str "y"]] ∧
    specCreateTabRows cexTabData none ≠ createTabRows cexTabData none := by
  refine ⟨by decide, by decide⟩

/-! ### Claim C10: missing mapping file -/

/-- Claim C10: when the mapping file cannot be opened or read — whether
the file is missing or any other I/O error occurs — `read_model_list`
returns the empty list; its total return type records that no exception
escapes to the caller. -/
theorem read_model_list_missing_file_empty :
    ∀ e : FsErr, read_model_list (Except.error e) = [] := by
  intro e
  rfl

/-! ### Sanitization lemmas (claims C6) -/

/-- Data view of single-character replacement. -/
theorem replaceChar_data (s : String) (c : Char) :
    (replaceChar s c).data = s.data.map (fun x => if x = c then '_' else x) := rfl

/-- A character of `s.replace(c, '_')` is not `c` and comes from `s` or is `_`. -/
theorem mem_replaceChar {x : Char} {s : String} {c : Char} (hc : c ≠ '_')
    (hx : x ∈ (replaceChar s c).data) : x ≠ c ∧ (x ∈ s.data ∨ x = '_') := by
  rw [replaceChar_data] at hx
  rcases List.mem_map.mp hx with ⟨y, hy, hxy⟩
  by_cases h : y = c
  · rw [if_pos h] at hxy
    subst hxy
    exact ⟨fun he => hc he.symm, Or.inr rfl⟩
  · rw [if_neg h] at hxy
    subst hxy
    exact ⟨h, Or.inl hy⟩

/-- After folding the replacements over `cs`, no character of `cs` remains. -/
theorem foldl_replace_mem : ∀ (cs : List Char) (s : String),
    (∀ c ∈ cs, c ≠ '_') →
    ∀ x ∈ (cs.foldl replaceChar s).data, x ∉ cs ∧ (x ∈ s.data ∨ x = '_') := by
  intro cs
  induction cs with
  | nil =>
    intro s _ x hx
    exact ⟨by simp, Or.inl hx⟩
  | cons c cs ih =>
    intro s hcs x hx
    simp only [List.foldl_cons] at hx
    have h2 := ih (replaceChar s c) (fun d hd => hcs d (List.mem_cons_of_mem _ hd)) x hx
    rcases h2 with ⟨hnot, hor⟩
    rcases hor with hmem | heq
    · have h3 := mem_replaceChar (hcs c (List.mem_cons_self _ _)) hmem
      refine ⟨?_, h3.2⟩
      intro hmem2
      rcases List.mem_cons.mp hmem2 with h4 | h4
      · exact h3.1 h4
      · exact hnot h4
    · subst heq
      refine ⟨?_, Or.inr rfl⟩
      intro hmem2
      rcases List.mem_cons.mp hmem2 with h4 | h4
      · exact hcs c (List.mem_cons_self _ _) h4.symm
      · exact hnot h4

/-- Replacing an absent character changes nothing. -/
theorem replaceChar_of_not_mem {s : String} {c : Char} (h : c ∉ s.data) :
    replaceChar s c = s := by
  apply String.ext
  rw [replaceChar_data]
  have hid : ∀ y ∈ s.data, (fun x => if x = c then '_' else x) y = y := by
    intro y hy
    simp only
    rw [if_neg]
    intro he
    exact h (he ▸ hy)
  exact (List.map_congr_left hid).trans (List.map_id s.data)

/-- Folding replacements of absent characters changes nothing. -/
theorem foldl_replace_of_not_mem : ∀ (cs : List Char) (s : String),
    (∀ c ∈ cs, c ∉ s.data) → cs.foldl replaceChar s = s := by
  intro cs
  induction cs with
  | nil => intro s _; rfl
  | cons c cs ih =>
    intro s h
    simp only [List.foldl_cons]
    rw [replaceChar_of_not_mem (h c (List.mem_cons_self _ _))]
    exact ih s (fun d hd => h d (List.mem_cons_of_mem _ hd))

/-- No sanitized name contains a forbidden character. -/
theorem sanitize_chars (s : String) : ∀ x ∈ (sanitizeTabName s).data, x ∉ invalidChars := by
  intro x hx
  have hrep : ∀ y ∈ (invalidChars.foldl replaceChar s).data, y ∉ invalidChars :=
    fun y hy => (foldl_replace_mem invalidChars s (by decide) y hy).1
  have hsheet : ∀ y ∈ ("Sheet" : String).data, y ∉ invalidChars := by decide
  simp only [sanitizeTabName] at hx
  split at hx
  · split at hx
    · exact hsheet x hx
    · exact hrep x (List.mem_of_mem_take hx)
  · split at hx
    · exact hsheet x hx
    · exact hrep x hx

/-- Every sanitized name has at most 31 characters. -/
theorem sanitize_len (s : String) : (sanitizeTabName s).data.length ≤ 31 := by
  simp only [sanitizeTabName]
  split
  · split
    · decide
    · simp only [List.length_take]
      omega
  · split
    · decide
    · omega

/-- No sanitized name is empty. -/
theorem sanitize_ne_empty (s : String) : sanitizeTabName s ≠ "" := by
  simp only [sanitizeTabName]
  split
  · split
    · decide
    · assumption
  · split
    · decide
    · assumption

/-! ### Claim C6: sanitization is idempotent -/

/-- Claim C6: `_sanitize_tab_name` is idempotent — its output contains no
forbidden character, has at most 31 characters and is nonempty, so the
replacement fold, the truncation and the empty-name default all leave it
unchanged. -/
theorem sanitizeTabName_idem (s : String) :
    sanitizeTabName (sanitizeTabName s) = sanitizeTabName s := by
  have hc : ∀ c ∈ invalidChars, c ∉ (sanitizeTabName s).data :=
    fun c hcmem hmem => sanitize_chars s c hmem hcmem
  have hl := sanitize_len s
  have hne := sanitize_ne_empty s
  generalize hgen : sanitizeTabName s = t at hc hl hne ⊢
  have h1 : invalidChars.foldl replaceChar t = t := foldl_replace_of_not_mem _ _ hc
  have h2 : ¬ 31 < t.data.length := by omega
  conv_lhs => simp only [sanitizeTabName]
  rw [h1, if_neg h2, if_neg hne]

/-! ### Claim C9: mapping-file parsing -/

/-- The loop of `read_model_list` equals the declarative per-line
classifier, for any starting line number and accumulators. -/
theorem readLinesGo_spec : ∀ (lines : List String) (n : Nat)
    (acc : List (String × String)) (warns : List Nat),
    readLinesGo lines n acc warns =
      (acc.reverse ++ lines.filterMap parseMapLine,
       warns.reverse ++ (List.enumFrom n lines).filterMap
         (fun p => if isMalformedLine p.2 then some p.1 else none)) := by
  intro lines
  induction lines with
  | nil =>
    intro n acc warns
    simp [readLinesGo]
  | cons l rest ih =>
    intro n acc warns
    by_cases hs : lineSkipped (pyStrip l) = true
    · have hp : parseMapLine l = none := by
        simp [parseMapLine, hs]
      have hm : isMalformedLine l = false := by
        simp [isMalformedLine, hs]
      simp [readLinesGo, hs, ih, hp, hm, List.enumFrom]
    · have hs' : lineSkipped (pyStrip l) = false := by
        exact Bool.eq_false_iff.mpr hs
      rcases hsp : splitComma (pyStrip l) with _ | ⟨a, _ | ⟨b, _ | ⟨c, r3⟩⟩⟩
      · have hp : parseMapLine l = none := by
          simp [parseMapLine, hs', hsp]
        have hm : isMalformedLine l = true := by
          simp [isMalformedLine, hs', hsp]
        simp [readLinesGo, hs', hsp, ih, hp, hm, List.enumFrom]
      · have hp : parseMapLine l = none := by
          simp [parseMapLine, hs', hsp]
        have hm : isMalformedLine l = true := by
          simp [isMalformedLine, hs', hsp]
        simp [readLinesGo, hs', hsp, ih, hp, hm, List.enumFrom]
      · have hp : parseMapLine l = some (pyStrip a, pyStrip b) := by
          simp [parseMapLine, hs', hsp]
        have hm : isMalformedLine l = false := by
          simp [isMalformedLine, hs', hsp]
        simp [readLinesGo, hs', hsp, ih, hp, hm, List.enumFrom]
      · have hp : parseMapLine l = none := by
          simp [parseMapLine, hs', hsp]
        have hm : isMalformedLine l = true := by
          simp [isMalformedLine, hs', hsp]
        simp [readLinesGo, hs', hsp, ih, hp, hm, List.enumFrom]

/-- Claim C9: the parser returns exactly one stripped (model-id, repo-id)
pair per line splitting on `,` into two fields, in file order; stripped
blank lines and `#`-comments are ignored, and each remaining malformed
line contributes only a warning carrying its 1-based line number while
parsing continues. -/
theorem read_model_list_line_spec (lines : List String) :
    (readModelLines lines).1 = lines.filterMap parseMapLine ∧
    (readModelLines lines).2 =
      (List.enumFrom 1 lines).filterMap
        (fun p => if isMalformedLine p.2 then some p.1 else none) := by
  rw [readModelLines, readLinesGo_spec]
  simp

/-! ### Fetcher lemmas (claims C2, C3, C7) -/

/-- The retry loop makes at most `fuel` further attempts. -/
theorem reqFrom_attempts_le (o : Nat → Attempt) :
    ∀ (fuel i : Nat) (sls : List Int), (reqFrom o fuel i sls).attempts ≤ i + fuel := by
  intro fuel
  induction fuel with
  | zero =>
    intro i sls
    simp [reqFrom]
  | succ fuel ih =>
    intro i sls
    simp only [reqFrom]
    rcases (o i).result with e | r
    · simp only
      omega
    · simp only
      by_cases hr : shouldRetry r
      · rw [if_pos hr]
        by_cases hf : fuel = 0
        · rw [if_pos hf]
          simp only
          omega
        · rw [if_neg hf]
          have := ih (i + 1) (sleepFor r (o i).now :: sls)
          omega
      · rw [if_neg hr]
        simp only
        omega

/-- With at least one iteration left, the loop makes at least one attempt. -/
theorem reqFrom_attempts_ge (o : Nat → Attempt) :
    ∀ (fuel i : Nat) (sls : List Int), 1 ≤ fuel →
      i + 1 ≤ (reqFrom o fuel i sls).attempts := by
  intro fuel
  induction fuel with
  | zero =>
    intro i sls h
    omega
  | succ fuel ih =>
    intro i sls _
    simp only [reqFrom]
    rcases (o i).result with e | r
    · simp only
      omega
    · simp only
      by_cases hr : shouldRetry r
      · rw [if_pos hr]
        by_cases hf : fuel = 0
        · rw [if_pos hf]
        · rw [if_neg hf]
          have := ih (i + 1) (sleepFor r (o i).now :: sls) (by omega)
          omega
      · rw [if_neg hr]

/-! ### Claim C2 (amended): retry policy of `_req` -/

/-- Claim C2 (amended): `_req` makes at most 3 HTTP attempts; its retry
condition is exactly `status == 403` together with the literal
zero-remaining header; when the first response satisfies it a second
attempt is made, and when it does not — any 2xx, any other non-2xx
status, and in particular a 429 — that first response is returned
immediately after a single attempt. -/
theorem req_retry_policy (o : Nat → Attempt) :
    (req o).attempts ≤ 3 ∧
    (∀ r : HttpResponse,
      shouldRetry r = (r.status == 403 && r.rlRemaining == some "0")) ∧
    (∀ r, (o 0).result = Except.ok r →
      (shouldRetry r = true ↔ 2 ≤ (req o).attempts) ∧
      (shouldRetry r = false →
        (req o).response = Except.ok r ∧ (req o).attempts = 1)) := by
  refine ⟨reqFrom_attempts_le o 3 0 [], fun r => rfl, ?_⟩
  intro r h0
  have hone : shouldRetry r = false →
      (req o).response = Except.ok r ∧ (req o).attempts = 1 := by
    intro hr
    constructor
    · simp [req, reqFrom, h0, hr]
    · simp [req, reqFrom, h0, hr]
  refine ⟨⟨?_, ?_⟩, hone⟩
  · intro hr
    have h2 : 2 ≤ (reqFrom o 2 1 [sleepFor r (o 0).now]).attempts :=
      reqFrom_attempts_ge o 2 1 _ (by omega)
    have hshape : req o = reqFrom o 2 1 [sleepFor r (o 0).now] := by
      simp [req, reqFrom, h0, hr]
    rw [hshape]
    exact h2
  · intro h2
    by_contra hr
    have hr' : shouldRetry r = false := by
      cases hsr : shouldRetry r
      · rfl
      · exact absurd hsr hr
    have := (hone hr').2
    omega

/-- Claim C2 witness: a plain 404 (not rate limited) is returned after
exactly one attempt. -/
theorem req_retry_policy_witness :
    (req oracle404).attempts ≤ 3 ∧
    shouldRetry resp404 = false ∧
    (req oracle404).response = Except.ok resp404 ∧
    (req oracle404).attempts = 1 := by
  have h := req_retry_policy oracle404
  have h4 := (h.2.2 resp404 rfl).2 (by decide)
  exact ⟨h.1, by decide, h4.1, h4.2⟩

/-! ### Claim C3 (amended): transport failures propagate -/

/-- Claim C3 (amended): a transport-level failure on the first attempt
propagates out of `safe_get_json` as an exception after exactly one
attempt — `_req` does not retry transport errors and `safe_get_json`
catches only `requests.HTTPError`, so the caller receives the exception,
not a failure tuple. -/
theorem transport_failure_propagates (o : Nat → Attempt) (e : String)
    (h : (o 0).result = Except.error e) :
    safe_get_json o = Except.error (PyErr.transport e) ∧
    (req o).attempts = 1 := by
  constructor
  · simp [safe_get_json, req, reqFrom, h]
  · simp [req, reqFrom, h]

/-- Claim C3 witness: a DNS failure at the first attempt. -/
theorem transport_failure_propagates_witness :
    safe_get_json oracleDnsFail = Except.error (PyErr.transport "name resolution failed") ∧
    (req oracleDnsFail).attempts = 1 :=
  transport_failure_propagates oracleDnsFail "name resolution failed" rfl

/-! ### Claim C7: backoff sleep durations -/

/-- Each backoff sleep lies between 0 and 60 seconds. -/
theorem sleepFor_bounds (r : HttpResponse) (now : Int) :
    0 ≤ sleepFor r now ∧ sleepFor r now ≤ 60 := by
  unfold sleepFor
  constructor
  · exact le_min (le_max_left 0 _) (by norm_num)
  · exact min_le_right _ _

/-- Characterization of the recorded sleeps: position `i` of the sleep
list is exactly the backoff for the rate-limited response of attempt `i`. -/
theorem req_sleeps_spec (o : Nat → Attempt) :
    ∀ i s, (req o).sleeps.get? i = some s →
      ∃ r, (o i).result = Except.ok r ∧ shouldRetry r = true ∧
        s = sleepFor r (o i).now := by
  intro i s hs
  rcases h0 : (o 0).result with e0 | r0
  · simp [req, reqFrom, h0] at hs
  · by_cases hr0 : shouldRetry r0
    case neg =>
      simp [req, reqFrom, h0, hr0] at hs
    case pos =>
      rcases h1 : (o 1).result with e1 | r1
      · simp [req, reqFrom, h0, hr0, h1] at hs
        rcases i with _ | i
        · simp at hs
          exact ⟨r0, h0, hr0, hs.symm⟩
        · simp at hs
      · by_cases hr1 : shouldRetry r1
        case neg =>
          simp [req, reqFrom, h0, hr0, h1, hr1] at hs
          rcases i with _ | i
          · simp at hs
            exact ⟨r0, h0, hr0, hs.symm⟩
          · simp at hs
        case pos =>
          rcases h2 : (o 2).result with e2 | r2
          · simp [req, reqFrom, h0, hr0, h1, hr1, h2] at hs
            rcases i with _ | _ | i
            · simp at hs
              exact ⟨r0, h0, hr0, hs.symm⟩
            · simp at hs
              exact ⟨r1, h1, hr1, hs.symm⟩
            · simp at hs
          · by_cases hr2 : shouldRetry r2
            case neg =>
              simp [req, reqFrom, h0, hr0, h1, hr1, h2, hr2] at hs
              rcases i with _ | _ | i
              · simp at hs
                exact ⟨r0, h0, hr0, hs.symm⟩
              · simp at hs
                exact ⟨r1, h1, hr1, hs.symm⟩
              · simp at hs
            case pos =>
              simp [req, reqFrom, h0, hr0, h1, hr1, h2, hr2] at hs
              rcases i with _ | _ | _ | i
              · simp at hs
                exact ⟨r0, h0, hr0, hs.symm⟩
              · simp at hs
                exact ⟨r1, h1, hr1, hs.symm⟩
              · simp at hs
                exact ⟨r2, h2, hr2, hs.symm⟩
              · simp at hs

/-- Claim C7: every sleep `_req` performs before a retry equals
`min(max(0, reset − now + 1), 60)` for the rate-limited response of that
attempt — in particular every sleep lies in `[0, 60]`, even for a
far-future reset — and a reset five seconds in the future yields a
six-second (≈ five-second) wait. -/
theorem req_sleep_durations (o : Nat → Attempt) :
    (∀ s ∈ (req o).sleeps, 0 ≤ s ∧ s ≤ 60) ∧
    (∀ i s, (req o).sleeps.get? i = some s →
      ∃ r, (o i).result = Except.ok r ∧ shouldRetry r = true ∧
        s = sleepFor r (o i).now) ∧
    (∀ (r : HttpResponse) (now : Int), r.rlReset = some (now + 5) →
      sleepFor r now = 6) := by
  refine ⟨?_, req_sleeps_spec o, ?_⟩
  · intro s hs
    rcases List.get?_of_mem hs with ⟨i, hi⟩
    rcases req_sleeps_spec o i s hi with ⟨r, _, _, hsf⟩
    rw [hsf]
    exact sleepFor_bounds r (o i).now
  · intro r now hr
    unfold sleepFor
    rw [hr, Option.getD_some]
    omega

/-- Claim C7 witness: with a first attempt rate limited at
`reset = now + 5`, the fetcher sleeps exactly 6 ≈ 5 seconds; with a
far-future reset the sleep is clamped to 60. -/
theorem req_sleep_durations_witness :
    (req oracleBackoff).sleeps.get? 0 = some 6 ∧
    (∃ r, (oracleBackoff 0).result = Except.ok r ∧ shouldRetry r = true ∧
      (6 : Int) = sleepFor r (oracleBackoff 0).now) ∧
    (0 ≤ (6 : Int) ∧ (6 : Int) ≤ 60) ∧
    (req oracleBackoffFar).sleeps = [60] := by
  have h := req_sleep_durations oracleBackoff
  refine ⟨by decide, h.2.1 0 6 (by decide), h.1 6 (by decide), by decide⟩

/-! ### Exporter lemmas (claim C8) -/

/-- Inserting keys that are all already present changes nothing. -/
theorem addKeys_all_mem : ∀ (r : RowRec) (acc : List String),
    (∀ k ∈ r.map Prod.fst, k ∈ acc) → addKeys acc r = acc := by
  intro r
  induction r with
  | nil => intro acc _; rfl
  | cons kv r ih =>
    intro acc h
    simp only [addKeys, List.foldl_cons]
    have hk : acc.contains kv.1 = true :=
      List.elem_iff.mpr (h kv.1 (by simp))
    rw [hk]
    simp only
    exact ih acc (fun k hkmem => h k (by simp [hkmem]))

/-- Inserting distinct fresh keys appends them in order. -/
theorem addKeys_nodup_fresh : ∀ (r : RowRec) (acc : List String),
    (r.map Prod.fst).Nodup → (∀ k ∈ r.map Prod.fst, k ∉ acc) →
    addKeys acc r = acc ++ r.map Prod.fst := by
  intro r
  induction r with
  | nil => intro acc _ _; simp [addKeys]
  | cons kv r ih =>
    intro acc hnd hfresh
    simp only [addKeys, List.foldl_cons]
    have hk : acc.contains kv.1 = false := by
      rcases hcon : acc.contains kv.1 with _ | _
      · rfl
      · exact absurd (List.elem_iff.mp hcon) (hfresh kv.1 (by simp))
    rw [hk]
    simp only [Bool.false_eq_true, if_false]
    have hnd' : (r.map Prod.fst).Nodup := by
      simp only [List.map_cons, List.nodup_cons] at hnd
      exact hnd.2
    have hhead : kv.1 ∉ r.map Prod.fst := by
      simp only [List.map_cons, List.nodup_cons] at hnd
      exact hnd.1
    have hfresh' : ∀ k ∈ r.map Prod.fst, k ∉ acc ++ [kv.1] := by
      intro k hkmem
      simp only [List.mem_append, List.mem_singleton]
      rintro (hkacc | hkeq)
      · exact hfresh k (by simp [hkmem]) hkacc
      · exact hhead (hkeq ▸ hkmem)
    have := ih (acc ++ [kv.1]) hnd' hfresh'
    simp only [addKeys] at this
    rw [this]
    simp

/-- Folding records whose keys are all in `cols` leaves `cols` unchanged. -/
theorem foldl_addKeys_const (cols : List String) : ∀ (rest : List RowRec),
    (∀ r ∈ rest, ∀ k ∈ r.map Prod.fst, k ∈ cols) →
    rest.foldl addKeys cols = cols := by
  intro rest
  induction rest with
  | nil => intro _; rfl
  | cons r rest ih =>
    intro h
    simp only [List.foldl_cons]
    rw [addKeys_all_mem r cols (h r (by simp))]
    exact ih (fun r2 hr2 => h r2 (by simp [hr2]))

/-- When every record has the first record's (duplicate-free) keys, the
DataFrame columns are exactly those keys. -/
theorem dfColumns_consistent (r0 : RowRec) (rest : List RowRec)
    (hnd : (r0.map Prod.fst).Nodup)
    (hcons : ∀ r ∈ rest, r.map Prod.fst = r0.map Prod.fst) :
    dfColumns (r0 :: rest) = r0.map Prod.fst := by
  simp only [dfColumns, List.foldl_cons]
  have h0 : addKeys [] r0 = r0.map Prod.fst := by
    have := addKeys_nodup_fresh r0 [] hnd (by simp)
    simpa using this
  rw [h0]
  exact foldl_addKeys_const _ rest
    (fun r hr k hk => by rw [hcons r hr] at hk; exact hk)

/-! ### Claim C8 (amended): rows written by `create_tab` -/

/-- Claim C8 (amended): for nonempty data `create_tab` writes the header
row — explicit headers if given, else the DataFrame columns, which for
consistent-key records are exactly the first record's keys — followed by
exactly one row per record, each aligned to the column count; cells keep
their original types, and only `create_tab_from_key_value_pairs`
produces all-text cells. -/
theorem createTab_row_shape (data : List RowRec) (headers : Option (List String))
    (r0 : RowRec) (rest : List RowRec) (hd : data = r0 :: rest) :
    (createTabRows data headers).length = data.length + 1 ∧
    (createTabRows data headers).head? =
      some ((match headers with | some hs => hs | none => dfColumns data).map Cell.str) ∧
    (∀ row ∈ (createTabRows data headers).tail, row.length = (dfColumns data).length) ∧
    ((r0.map Prod.fst).Nodup →
      (∀ r ∈ rest, r.map Prod.fst = r0.map Prod.fst) →
      dfColumns data = r0.map Prod.fst) ∧
    (∀ kvs : List (String × Cell), ∀ row ∈ createTabKVRows kvs,
      ∀ c ∈ row, ∃ s, c = Cell.str s) := by
  subst hd
  refine ⟨?_, ?_, ?_, ?_, ?_⟩
  · simp [createTabRows]
  · rfl
  · intro row hrow
    simp only [createTabRows, List.tail_cons] at hrow
    rcases List.mem_map.mp hrow with ⟨r, _, hr⟩
    rw [← hr]
    simp [alignRow]
  · intro hnd hcons
    exact dfColumns_consistent r0 rest hnd hcons
  · intro kvs row hrow c hc
    rcases kvs with _ | ⟨kv0, kvs⟩
    · simp [createTabKVRows, createTabRows] at hrow
    · have hkeys : ∀ kv : String × Cell,
          List.map Prod.fst [("Key", Cell.str kv.1), ("Value", Cell.str (cellStr kv.2))] =
            ["Key", "Value"] := fun kv => rfl
      have hcols : dfColumns ([("Key", Cell.str kv0.1), ("Value", Cell.str (cellStr kv0.2))] ::
          kvs.map (fun kv => [("Key", Cell.str kv.1), ("Value", Cell.str (cellStr kv.2))])) =
          ["Key", "Value"] := by
        have h1 := dfColumns_consistent
          [("Key", Cell.str kv0.1), ("Value", Cell.str (cellStr kv0.2))]
          (kvs.map (fun kv => [("Key", Cell.str kv.1), ("Value", Cell.str (cellStr kv.2))]))
          (by rw [hkeys kv0]; decide)
          (by
            intro r hr
            rcases List.mem_map.mp hr with ⟨kv, _, hkv⟩
            rw [← hkv, hkeys kv, hkeys kv0])
        rw [h1, hkeys kv0]
      have halign : ∀ kv : String × Cell,
          alignRow ["Key", "Value"]
            [("Key", Cell.str kv.1), ("Value", Cell.str (cellStr kv.2))] =
            [Cell.str kv.1, Cell.str (cellStr kv.2)] := fun kv => rfl
      simp only [createTabKVRows, createTabRows, List.map_cons, hcols] at hrow
      rcases List.mem_cons.mp hrow with hhead | htail
      · subst hhead
        simp only [List.map_cons, List.map_nil] at hc
        rcases List.mem_cons.mp hc with hc | hc
        · exact ⟨"Key", hc⟩
        · rcases List.mem_cons.mp hc with hc | hc
          · exact ⟨"Value", hc⟩
          · simp at hc
      · rcases List.mem_cons.mp htail with hr0 | hrrest
        · rw [hr0, halign kv0] at hc
          rcases List.mem_cons.mp hc with hc | hc
          · exact ⟨kv0.1, hc⟩
          · rcases List.mem_cons.mp hc with hc | hc
            · exact ⟨cellStr kv0.2, hc⟩
            · simp at hc
        · rcases List.mem_map.mp hrrest with ⟨r, hrmem, hr⟩
          rcases List.mem_map.mp hrmem with ⟨kv, _, hkv⟩
          rw [← hr, ← hkv, halign kv] at hc
          rcases List.mem_cons.mp hc with hc | hc
          · exact ⟨kv.1, hc⟩
          · rcases List.mem_cons.mp hc with hc | hc
            · exact ⟨cellStr kv.2, hc⟩
            · simp at hc

/-- Claim C8 witness: concrete consistent-key records and key-value data. -/
theorem createTab_row_shape_witness :
    (createTabRows wTabData none).length = wTabData.length + 1 ∧
    dfColumns wTabData = ["Scope", "Key", "Value"] ∧
    (createTabRows wTabData none).head? =
      some [Cell.str "Scope", Cell.str "Key", Cell.str "Value"] ∧
    (∀ row ∈ createTabKVRows wKVData, ∀ c ∈ row, ∃ s, c = Cell.str s) := by
  have h := createTab_row_shape wTabData none
    [("Scope", Cell.str "Repository"), ("Key", Cell.str "repo.name"), ("Value", Cell.str "x")]
    [[("Scope", Cell.str "Owner/Org"), ("Key", Cell.str "owner.login"), ("Value", Cell.str "y")]]
    rfl
  refine ⟨h.1, ?_, by decide, fun row hrow c hc => h.2.2.2.2 wKVData row hrow c hc⟩
  have := h.2.2.2.1 (by decide) (by decide)
  simpa using this

/-! ### Decimal representation lemmas (claim C5 infrastructure) -/

/-- The fuel-based digit run computes the base-10 value back. -/
theorem digitsVal_natDigitsGo (fuel : Nat) : ∀ n, n < fuel →
    digitsVal (natDigitsGo fuel n) = n := by
  induction fuel with
  | zero =>
    intro n hn
    omega
  | succ fuel ih =>
    intro n hn
    by_cases h : n < 10
    · simp only [natDigitsGo, if_pos h, digitsVal, List.foldl]
      interval_cases n <;> decide
    · simp only [natDigitsGo, if_neg h]
      have hd : n / 10 < fuel := by omega
      have hrec := ih (n / 10) hd
      simp only [digitsVal] at hrec ⊢
      rw [List.foldl_append, hrec]
      have hm : n % 10 < 10 := Nat.mod_lt _ (by omega)
      have hdig : digitVal (digitChar10 (n % 10)) = n % 10 := by
        interval_cases hmm : n % 10 <;> decide
      simp only [List.foldl, hdig]
      omega

/-- Decimal rendering is injective. -/
theorem natRepr_inj {m n : Nat} (h : natRepr m = natRepr n) : m = n := by
  have hd : natDigitsGo (m + 1) m = natDigitsGo (n + 1) n := congrArg String.data h
  have h1 := digitsVal_natDigitsGo (m + 1) m (by omega)
  have h2 := digitsVal_natDigitsGo (n + 1) n (by omega)
  rw [hd] at h1
  omega

/-- Digit characters are never a separator or closing bracket. -/
theorem natDigitsGo_chars (fuel : Nat) :
    ∀ n, ∀ c ∈ natDigitsGo fuel n, c ≠ ']' ∧ c ≠ '.' ∧ c ≠ '[' := by
  induction fuel with
  | zero =>
    intro n c hc
    simp [natDigitsGo] at hc
  | succ fuel ih =>
    intro n c hc
    by_cases h : n < 10
    · simp only [natDigitsGo, if_pos h] at hc
      simp at hc
      subst hc
      interval_cases n <;> refine ⟨by decide, by decide, by decide⟩
    · simp only [natDigitsGo, if_neg h] at hc
      rcases List.mem_append.mp hc with h1 | h2
      · exact ih (n / 10) c h1
      · simp at h2
        subst h2
        have hm : n % 10 < 10 := Nat.mod_lt _ (by omega)
        interval_cases hmm : n % 10 <;> refine ⟨by decide, by decide, by decide⟩

/-- Characters of `natRepr n`. -/
theorem natRepr_chars (n : Nat) : ∀ c ∈ (natRepr n).data, c ≠ ']' ∧ c ≠ '.' ∧ c ≠ '[' :=
  fun c hc => natDigitsGo_chars (n + 1) n c hc

/-! ### Generic list decomposition lemmas (claim C5 infrastructure) -/

/-- Cancellation of appended lists whose left parts avoid a character set
`S` and whose right parts are empty or `S`-headed. -/
theorem unappend_eq (S : Char → Prop) :
    ∀ (a x b y : List Char),
      (∀ c ∈ a, ¬ S c) → (∀ c ∈ b, ¬ S c) →
      (x = [] ∨ ∃ c x2, x = c :: x2 ∧ S c) →
      (y = [] ∨ ∃ c y2, y = c :: y2 ∧ S c) →
      a ++ x = b ++ y → a = b ∧ x = y := by
  intro a
  induction a with
  | nil =>
    intro x b y _ hb hx hy he
    cases b with
    | nil => exact ⟨rfl, he⟩
    | cons c b2 =>
      exfalso
      rcases hx with hx | ⟨cx, x2, hx, hSx⟩
      · subst hx
        simp at he
      · subst hx
        simp only [List.nil_append, List.cons_append] at he
        have : cx = c := (List.cons.injEq .. ▸ he).1
        exact hb c (by simp) (this ▸ hSx)
  | cons c a2 ih =>
    intro x b y ha hb hx hy he
    cases b with
    | nil =>
      exfalso
      rcases hy with hy | ⟨cy, y2, hy, hSy⟩
      · subst hy
        simp at he
      · subst hy
        simp only [List.cons_append, List.nil_append] at he
        have : c = cy := (List.cons.injEq .. ▸ he).1
        exact ha c (by simp) (this ▸ hSy)
    | cons c2 b2 =>
      simp only [List.cons_append, List.cons.injEq] at he
      obtain ⟨hc, he2⟩ := he
      subst hc
      have := ih x b2 y (fun d hd => ha d (by simp [hd])) (fun d hd => hb d (by simp [hd])) hx hy he2
      exact ⟨by rw [this.1], this.2⟩

/-- Splitting an equality of appended lists by a predicate that holds on
both left parts and fails on both right parts. -/
theorem append_split_pred {α : Type} (P : α → Prop) :
    ∀ (A1 B1 A2 B2 : List α),
      (∀ z ∈ A1, P z) → (∀ z ∈ A2, P z) →
      (∀ z ∈ B1, ¬ P z) → (∀ z ∈ B2, ¬ P z) →
      A1 ++ B1 = A2 ++ B2 → A1 = A2 ∧ B1 = B2 := by
  intro A1
  induction A1 with
  | nil =>
    intro B1 A2 B2 _ hA2 hB1 _ he
    cases A2 with
    | nil => exact ⟨rfl, he⟩
    | cons z A2' =>
      exfalso
      simp only [List.nil_append, List.cons_append] at he
      exact hB1 z (he ▸ (by simp)) (hA2 z (by simp))
  | cons z A1' ih =>
    intro B1 A2 B2 hA1 hA2 hB1 hB2 he
    cases A2 with
    | nil =>
      exfalso
      simp only [List.cons_append, List.nil_append] at he
      exact hB2 z (he ▸ (by simp)) (hA1 z (by simp))
    | cons z2 A2' =>
      simp only [List.cons_append, List.cons.injEq] at he
      obtain ⟨hz, he2⟩ := he
      subst hz
      have := ih B1 A2' B2 (fun w hw => hA1 w (by simp [hw]))
        (fun w hw => hA2 w (by simp [hw])) hB1 hB2 he2
      exact ⟨by rw [this.1], this.2⟩

/-! ### String and goodness helper lemmas (claim C5 infrastructure) -/

/-- A string with nonempty character data is nonempty. -/
theorem str_ne_empty_of_data {s : String} (h : s.data ≠ []) : s ≠ "" := by
  intro he
  subst he
  exact h rfl

/-- A nonempty string has nonempty character data. -/
theorem data_ne_empty_of_str {s : String} (h : s ≠ "") : s.data ≠ [] := by
  intro hd
  exact h (String.ext hd)

/-- A good key is nonempty. -/
theorem goodKey_ne {k : String} (h : goodKey k = true) : k ≠ "" := by
  simp only [goodKey, Bool.and_eq_true, decide_eq_true_eq] at h
  exact h.1

/-- Characters of a good key avoid both separators. -/
theorem goodKey_chars {k : String} (h : goodKey k = true) :
    ∀ c ∈ k.data, c ≠ '.' ∧ c ≠ '[' := by
  simp only [goodKey, Bool.and_eq_true, List.all_eq_true, decide_eq_true_eq] at h
  exact fun c hc => h.2 c hc

/-- Unfolding goodness of a list value. -/
theorem goodV_list {es : PyList} (h : goodV (.list es) = true) :
    es ≠ .nil ∧ goodL es = true := by
  simp only [goodV, Bool.and_eq_true, decide_eq_true_eq] at h
  exact h

/-- Unfolding goodness of a dict value. -/
theorem goodV_dict {fs : PyFields} (h : goodV (.dict fs) = true) :
    fs ≠ .nil ∧ (fieldKeys fs).Nodup ∧ goodF fs = true := by
  simp only [goodV, Bool.and_eq_true, decide_eq_true_eq] at h
  exact ⟨h.1.1, h.1.2, h.2⟩

/-- Unfolding goodness of list elements. -/
theorem goodL_cons {v : PyVal} {r : PyList} (h : goodL (.cons v r) = true) :
    goodV v = true ∧ goodL r = true := by
  simp only [goodL, Bool.and_eq_true] at h
  exact h

/-- Unfolding goodness of dict fields. -/
theorem goodF_cons {k : String} {v : PyVal} {r : PyFields}
    (h : goodF (.cons k v r) = true) :
    goodKey k = true ∧ goodV v = true ∧ goodF r = true := by
  simp only [goodF, Bool.and_eq_true] at h
  exact ⟨h.1.1, h.1.2, h.2⟩

/-- The child prefix of a good key is never empty. -/
theorem childPfx_ne_empty (pfx : String) {k : String} (hk : goodKey k = true) :
    childPfx pfx k ≠ "" := by
  unfold childPfx
  split
  · exact goodKey_ne hk
  · apply str_ne_empty_of_data
    rw [String.data_append]
    simp

/-- Data of a child prefix under a nonempty prefix. -/
theorem childPfx_data {pfx : String} (k : String) (hp : pfx ≠ "") :
    (childPfx pfx k).data = pfx.data ++ '.' :: k.data := by
  unfold childPfx
  rw [if_neg hp, String.data_append, String.data_append, List.append_assoc]
  rfl

/-- Data of a child prefix under the empty prefix. -/
theorem childPfx_data_empty (k : String) : (childPfx "" k).data = k.data := rfl

/-- Data of the index prefix `f"{prefix}[{i}]"`. -/
theorem idxPfx_data (pfx : String) (i : Nat) :
    (pfx ++ "[" ++ natRepr i ++ "]").data =
      pfx.data ++ '[' :: ((natRepr i).data ++ [']']) := by
  rw [String.data_append, String.data_append, String.data_append]
  simp

/-- The index prefix is never empty. -/
theorem idxPfx_ne_empty (pfx : String) (i : Nat) :
    (pfx ++ "[" ++ natRepr i ++ "]") ≠ "" := by
  apply str_ne_empty_of_data
  rw [idxPfx_data]
  simp

/-- One unfolding step of `flattenD` through `childPfx`. -/
theorem flattenD_cons (pfx k : String) (v : PyVal) (r : PyFields) :
    flattenD pfx (.cons k v r) = flatten (childPfx pfx k) v ++ flattenD pfx r := rfl

/-! ### Nonemptiness of flattenings of good values -/

mutual
theorem flatten_ne_nil : ∀ (v : PyVal) (pfx : String), goodV v = true →
    flatten pfx v ≠ [] := by
  intro v pfx hg
  cases v with
  | null => simp [flatten]
  | bool b => simp [flatten]
  | int n => simp [flatten]
  | str s => simp [flatten]
  | list es =>
    obtain ⟨hne, hgl⟩ := goodV_list hg
    exact flattenL_ne_nil es pfx 0 hne hgl
  | dict fs =>
    obtain ⟨hne, _, hgf⟩ := goodV_dict hg
    exact flattenD_ne_nil fs pfx hne hgf
theorem flattenL_ne_nil : ∀ (es : PyList) (pfx : String) (i : Nat), es ≠ .nil →
    goodL es = true → flattenL pfx i es ≠ [] := by
  intro es pfx i hne hg
  cases es with
  | nil => exact absurd rfl hne
  | cons v r =>
    obtain ⟨hgv, _⟩ := goodL_cons hg
    simp only [flattenL]
    intro h
    exact flatten_ne_nil v _ hgv (List.append_eq_nil.mp h).1
theorem flattenD_ne_nil : ∀ (fs : PyFields) (pfx : String), fs ≠ .nil →
    goodF fs = true → flattenD pfx fs ≠ [] := by
  intro fs pfx hne hg
  cases fs with
  | nil => exact absurd rfl hne
  | cons k v r =>
    obtain ⟨_, hgv, _⟩ := goodF_cons hg
    rw [flattenD_cons]
    intro h
    exact flatten_ne_nil v _ hgv (List.append_eq_nil.mp h).1
end

/-! ### Path shapes of flattenings of good values -/

mutual
theorem flatten_paths : ∀ (v : PyVal) (pfx : String), goodV v = true → pfx ≠ "" →
    ∀ pr ∈ flatten pfx v, ∃ t, pr.1.data = pfx.data ++ t ∧ HeadBad t := by
  intro v pfx hg hp pr hpr
  cases v with
  | null =>
    simp only [flatten, List.mem_singleton] at hpr
    subst hpr
    exact ⟨[], by simp, Or.inl rfl⟩
  | bool b =>
    simp only [flatten, List.mem_singleton] at hpr
    subst hpr
    exact ⟨[], by simp, Or.inl rfl⟩
  | int n =>
    simp only [flatten, List.mem_singleton] at hpr
    subst hpr
    exact ⟨[], by simp, Or.inl rfl⟩
  | str s =>
    simp only [flatten, List.mem_singleton] at hpr
    subst hpr
    exact ⟨[], by simp, Or.inl rfl⟩
  | list es =>
    obtain ⟨_, hgl⟩ := goodV_list hg
    simp only [flatten] at hpr
    obtain ⟨m, t, _, hdata, ht⟩ := flattenL_paths es pfx 0 hgl pr hpr
    exact ⟨'[' :: ((natRepr m).data ++ ']' :: t), hdata, Or.inr ⟨'[', _, rfl, Or.inr rfl⟩⟩
  | dict fs =>
    obtain ⟨_, _, hgf⟩ := goodV_dict hg
    simp only [flatten] at hpr
    obtain ⟨k, t, _, _, hdata, ht⟩ := flattenD_paths fs pfx hgf pr hpr
    rw [childPfx_data k hp, List.append_assoc] at hdata
    exact ⟨'.' :: (k.data ++ t), hdata, Or.inr ⟨'.', _, rfl, Or.inl rfl⟩⟩
theorem flattenL_paths : ∀ (es : PyList) (pfx : String) (i : Nat), goodL es = true →
    ∀ pr ∈ flattenL pfx i es, ∃ m t, i ≤ m ∧
      pr.1.data = pfx.data ++ '[' :: ((natRepr m).data ++ ']' :: t) ∧ HeadBad t := by
  intro es pfx i hg pr hpr
  cases es with
  | nil => simp [flattenL] at hpr
  | cons v r =>
    obtain ⟨hgv, hgr⟩ := goodL_cons hg
    simp only [flattenL] at hpr
    rcases List.mem_append.mp hpr with hleft | hright
    · obtain ⟨t, hdata, ht⟩ :=
        flatten_paths v _ hgv (idxPfx_ne_empty pfx i) pr hleft
      refine ⟨i, t, le_refl i, ?_, ht⟩
      rw [hdata, idxPfx_data, List.append_assoc]
      simp
    · obtain ⟨m, t, hm, hdata, ht⟩ := flattenL_paths r pfx (i + 1) hgr pr hright
      exact ⟨m, t, by omega, hdata, ht⟩
theorem flattenD_paths : ∀ (fs : PyFields) (pfx : String), goodF fs = true →
    ∀ pr ∈ flattenD pfx fs, ∃ k t, k ∈ fieldKeys fs ∧ goodKey k = true ∧
      pr.1.data = (childPfx pfx k).data ++ t ∧ HeadBad t := by
  intro fs pfx hg pr hpr
  cases fs with
  | nil => simp [flattenD] at hpr
  | cons k v r =>
    obtain ⟨hgk, hgv, hgr⟩ := goodF_cons hg
    rw [flattenD_cons] at hpr
    rcases List.mem_append.mp hpr with hleft | hright
    · obtain ⟨t, hdata, ht⟩ :=
        flatten_paths v _ hgv (childPfx_ne_empty pfx hgk) pr hleft
      exact ⟨k, t, by simp [fieldKeys], hgk, hdata, ht⟩
    · obtain ⟨k2, t, hk2, hgk2, hdata, ht⟩ := flattenD_paths r pfx hgr pr hright
      exact ⟨k2, t, by simp [fieldKeys, hk2], hgk2, hdata, ht⟩
end

/-! ### Separation of sibling blocks in a flattening -/

/-- Two child prefixes agreeing up to a segment boundary have equal keys. -/
theorem key_eq_of_childPfx {pfx k1 k2 : String}
    (h1 : goodKey k1 = true) (h2 : goodKey k2 = true)
    {u1 u2 : List Char} (hu1 : HeadBad u1) (hu2 : HeadBad u2)
    (he : (childPfx pfx k1).data ++ u1 = (childPfx pfx k2).data ++ u2) : k1 = k2 := by
  have hS1 : ∀ c ∈ k1.data, ¬ (c = '.' ∨ c = '[') := by
    intro c hc hor
    rcases goodKey_chars h1 c hc with ⟨hd, hb⟩
    rcases hor with h | h
    · exact hd h
    · exact hb h
  have hS2 : ∀ c ∈ k2.data, ¬ (c = '.' ∨ c = '[') := by
    intro c hc hor
    rcases goodKey_chars h2 c hc with ⟨hd, hb⟩
    rcases hor with h | h
    · exact hd h
    · exact hb h
  by_cases hp : pfx = ""
  · subst hp
    rw [childPfx_data_empty, childPfx_data_empty] at he
    have := unappend_eq (fun c => c = '.' ∨ c = '[') k1.data u1 k2.data u2 hS1 hS2 hu1 hu2 he
    exact String.ext this.1
  · rw [childPfx_data k1 hp, childPfx_data k2 hp] at he
    rw [List.append_assoc, List.append_assoc] at he
    have he2 := List.append_cancel_left he
    simp only [List.cons_append, List.cons.injEq, true_and] at he2
    have := unappend_eq (fun c => c = '.' ∨ c = '[') k1.data u1 k2.data u2 hS1 hS2 hu1 hu2 he2
    exact String.ext this.1

/-- A path lying in the block of key `k2 ≠ k1` is not a segment extension
of the child prefix of `k1`. -/
theorem not_segPre_key {pfx k1 k2 : String}
    (h1 : goodKey k1 = true) (h2 : goodKey k2 = true) (hne : k1 ≠ k2)
    {t : List Char} (ht : HeadBad t) {p : String}
    (hp : p.data = (childPfx pfx k2).data ++ t) : ¬ SegPre (childPfx pfx k1) p := by
  rintro ⟨u, hu, hbu⟩
  rw [hp] at hu
  exact hne (key_eq_of_childPfx h1 h2 hbu ht hu.symm)

/-- Equal index blocks have equal indices. -/
theorem idx_eq_of_data {i m : Nat} {u t : List Char}
    (he : (natRepr i).data ++ ']' :: u = (natRepr m).data ++ ']' :: t) : i = m := by
  have hS1 : ∀ c ∈ (natRepr i).data, ¬ c = ']' :=
    fun c hc => (natRepr_chars i c hc).1
  have hS2 : ∀ c ∈ (natRepr m).data, ¬ c = ']' :=
    fun c hc => (natRepr_chars m c hc).1
  have := unappend_eq (fun c => c = ']') (natRepr i).data (']' :: u)
    (natRepr m).data (']' :: t) hS1 hS2
    (Or.inr ⟨']', u, rfl, rfl⟩) (Or.inr ⟨']', t, rfl, rfl⟩) he
  exact natRepr_inj (String.ext this.1)

/-- A path lying in the block of index `m ≠ i` is not a segment extension
of the index prefix of `i`. -/
theorem not_segPre_idx {pfx : String} {i m : Nat} (hne : i ≠ m)
    {t : List Char} {p : String}
    (hp : p.data = pfx.data ++ '[' :: ((natRepr m).data ++ ']' :: t)) :
    ¬ SegPre (pfx ++ "[" ++ natRepr i ++ "]") p := by
  rintro ⟨u, hu, hbu⟩
  rw [idxPfx_data, List.append_assoc] at hu
  simp only [List.cons_append, List.append_assoc] at hu
  rw [hp] at hu
  have he2 := List.append_cancel_left hu.symm
  simp only [List.cons.injEq, true_and] at he2
  exact hne (idx_eq_of_data he2)

/-- No path of a dict block with keys avoiding `k1` extends `k1`'s child
prefix. -/
theorem flattenD_not_segPre {fs : PyFields} {pfx k1 : String}
    (hg : goodF fs = true) (hk1 : goodKey k1 = true) (hnm : k1 ∉ fieldKeys fs) :
    ∀ pr ∈ flattenD pfx fs, ¬ SegPre (childPfx pfx k1) pr.1 := by
  intro pr hpr
  obtain ⟨k, t, hk, hgk, hdata, ht⟩ := flattenD_paths fs pfx hg pr hpr
  have hne : k1 ≠ k := fun h => hnm (h ▸ hk)
  exact not_segPre_key hk1 hgk hne ht hdata

/-- No path of the tail blocks (indices `≥ j > i`) extends index `i`'s
prefix. -/
theorem flattenL_not_segPre {es : PyList} {pfx : String} {i j : Nat}
    (hg : goodL es = true) (hij : i < j) :
    ∀ pr ∈ flattenL pfx j es, ¬ SegPre (pfx ++ "[" ++ natRepr i ++ "]") pr.1 := by
  intro pr hpr
  obtain ⟨m, t, hm, hdata, ht⟩ := flattenL_paths es pfx j hg pr hpr
  exact not_segPre_idx (by omega) hdata

/-! ### Shape discrimination via the first path -/

/-- A scalar has shape tag 0. -/
theorem shapeTag_of_isScalar {v : PyVal} (h : isScalar v = true) : shapeTag v = 0 := by
  cases v <;> simp_all [isScalar, shapeTag]

/-- The first pair of a good value's flattening: its path extends the
prefix with nothing (scalar), an opening bracket (list), or a dot (dict). -/
theorem flatten_head_suffix : ∀ (v : PyVal) (pfx : String), goodV v = true → pfx ≠ "" →
    ∃ q s rest t, flatten pfx v = (q, s) :: rest ∧ q.data = pfx.data ++ t ∧
      ((isScalar v = true ∧ t = []) ∨
       (shapeTag v = 1 ∧ ∃ t2, t = '[' :: t2) ∨
       (shapeTag v = 2 ∧ ∃ t2, t = '.' :: t2)) := by
  intro v pfx hg hp
  cases v with
  | null => exact ⟨pfx, "None", [], [], rfl, by simp, Or.inl ⟨rfl, rfl⟩⟩
  | bool b => exact ⟨pfx, if b then "True" else "False", [], [], rfl, by simp, Or.inl ⟨rfl, rfl⟩⟩
  | int n => exact ⟨pfx, toString n, [], [], rfl, by simp, Or.inl ⟨rfl, rfl⟩⟩
  | str s => exact ⟨pfx, s, [], [], rfl, by simp, Or.inl ⟨rfl, rfl⟩⟩
  | list es =>
    obtain ⟨hne, hgl⟩ := goodV_list hg
    cases es with
    | nil => exact absurd rfl hne
    | cons v r =>
      obtain ⟨hgv, hgr⟩ := goodL_cons hgl
      obtain ⟨pr, tl, hfe⟩ := List.exists_cons_of_ne_nil
        (flatten_ne_nil v (pfx ++ "[" ++ natRepr 0 ++ "]") hgv)
      obtain ⟨q, s⟩ := pr
      obtain ⟨u, hdata, hu⟩ := flatten_paths v _ hgv (idxPfx_ne_empty pfx 0) (q, s)
        (by rw [hfe]; simp)
      refine ⟨q, s, tl ++ flattenL pfx 1 r, '[' :: ((natRepr 0).data ++ ']' :: u),
        ?_, ?_, Or.inr (Or.inl ⟨rfl, _, rfl⟩)⟩
      · simp only [flatten, flattenL, hfe, List.cons_append]
      · simp only at hdata
        rw [hdata, idxPfx_data, List.append_assoc]
        simp
  | dict fs =>
    obtain ⟨hne, hnd, hgf⟩ := goodV_dict hg
    cases fs with
    | nil => exact absurd rfl hne
    | cons k v r =>
      obtain ⟨hgk, hgv, hgr⟩ := goodF_cons hgf
      obtain ⟨pr, tl, hfe⟩ := List.exists_cons_of_ne_nil
        (flatten_ne_nil v (childPfx pfx k) hgv)
      obtain ⟨q, s⟩ := pr
      obtain ⟨u, hdata, hu⟩ := flatten_paths v _ hgv (childPfx_ne_empty pfx hgk) (q, s)
        (by rw [hfe]; simp)
      refine ⟨q, s, tl ++ flattenD pfx r, '.' :: (k.data ++ u),
        ?_, ?_, Or.inr (Or.inr ⟨rfl, _, rfl⟩)⟩
      · simp only [flatten]
        rw [flattenD_cons, hfe]
        simp only [List.cons_append]
      · simp only at hdata
        rw [hdata, childPfx_data k hp, List.append_assoc]
        rfl

/-- Equal flattenings of good values (under a nonempty prefix) have equal
shape classes. -/
theorem shape_eq_of_flatten_eq (v1 v2 : PyVal) (pfx : String) (hp : pfx ≠ "")
    (g1 : goodV v1 = true) (g2 : goodV v2 = true)
    (he : flatten pfx v1 = flatten pfx v2) : shapeTag v1 = shapeTag v2 := by
  obtain ⟨q1, s1, r1, t1, hf1, hq1, hc1⟩ := flatten_head_suffix v1 pfx g1 hp
  obtain ⟨q2, s2, r2, t2, hf2, hq2, hc2⟩ := flatten_head_suffix v2 pfx g2 hp
  rw [hf1, hf2] at he
  simp only [List.cons.injEq, Prod.mk.injEq] at he
  have hq : q1 = q2 := he.1.1
  have ht : t1 = t2 := by
    rw [hq] at hq1
    exact List.append_cancel_left (hq1.symm.trans hq2)
  rcases hc1 with ⟨hs1, hts1⟩ | ⟨hs1, t1b, hts1⟩ | ⟨hs1, t1b, hts1⟩ <;>
    rcases hc2 with ⟨hs2, hts2⟩ | ⟨hs2, t2b, hts2⟩ | ⟨hs2, t2b, hts2⟩ <;>
      subst hts1 <;> subst hts2
  · rw [shapeTag_of_isScalar hs1, shapeTag_of_isScalar hs2]
  · simp at ht
  · simp at ht
  · simp at ht
  · rw [hs1, hs2]
  · simp at ht
  · simp at ht
  · simp at ht
  · rw [hs1, hs2]

/-! ### The main determination theorems -/

mutual
theorem flatten_det : ∀ (v1 v2 : PyVal) (pfx : String), pfx ≠ "" →
    goodV v1 = true → goodV v2 = true →
    flatten pfx v1 = flatten pfx v2 → coerceV v1 = coerceV v2 := by
  intro v1 v2 pfx hp g1 g2 he
  have hsh := shape_eq_of_flatten_eq v1 v2 pfx hp g1 g2 he
  rcases v1 with _ | b1 | n1 | s1 | es1 | fs1 <;>
    rcases v2 with _ | b2 | n2 | s2 | es2 | fs2 <;>
      simp only [shapeTag] at hsh <;>
      try omega
  all_goals try (
    simp only [flatten, List.cons.injEq, Prod.mk.injEq, and_true, true_and] at he
    simp only [coerceV, he]
    done)
  · obtain ⟨hne1, hgl1⟩ := goodV_list g1
    obtain ⟨hne2, hgl2⟩ := goodV_list g2
    simp only [flatten] at he
    simp only [coerceV]
    rw [flattenL_det es1 es2 pfx 0 hgl1 hgl2 he]
  · obtain ⟨hne1, hnd1, hgf1⟩ := goodV_dict g1
    obtain ⟨hne2, hnd2, hgf2⟩ := goodV_dict g2
    simp only [flatten] at he
    simp only [coerceV]
    rw [flattenD_det fs1 fs2 pfx hgf1 hgf2 hnd1 hnd2 he]
theorem flattenL_det : ∀ (es1 es2 : PyList) (pfx : String) (i : Nat),
    goodL es1 = true → goodL es2 = true →
    flattenL pfx i es1 = flattenL pfx i es2 → coerceL es1 = coerceL es2 := by
  intro es1 es2 pfx i hg1 hg2 he
  cases es1 with
  | nil =>
    cases es2 with
    | nil => rfl
    | cons v2 r2 =>
      exfalso
      obtain ⟨hgv2, _⟩ := goodL_cons hg2
      simp only [flattenL] at he
      exact flatten_ne_nil v2 _ hgv2 (List.append_eq_nil.mp he.symm).1
  | cons v1 r1 =>
    cases es2 with
    | nil =>
      exfalso
      obtain ⟨hgv1, _⟩ := goodL_cons hg1
      simp only [flattenL] at he
      exact flatten_ne_nil v1 _ hgv1 (List.append_eq_nil.mp he).1
    | cons v2 r2 =>
      obtain ⟨hgv1, hgr1⟩ := goodL_cons hg1
      obtain ⟨hgv2, hgr2⟩ := goodL_cons hg2
      simp only [flattenL] at he
      have hsplit := append_split_pred
        (fun pr : String × String => SegPre (pfx ++ "[" ++ natRepr i ++ "]") pr.1)
        (flatten (pfx ++ "[" ++ natRepr i ++ "]") v1) (flattenL pfx (i + 1) r1)
        (flatten (pfx ++ "[" ++ natRepr i ++ "]") v2) (flattenL pfx (i + 1) r2)
        (fun pr hpr => flatten_paths v1 _ hgv1 (idxPfx_ne_empty pfx i) pr hpr)
        (fun pr hpr => flatten_paths v2 _ hgv2 (idxPfx_ne_empty pfx i) pr hpr)
        (fun pr hpr => flattenL_not_segPre hgr1 (by omega) pr hpr)
        (fun pr hpr => flattenL_not_segPre hgr2 (by omega) pr hpr)
        he
      have hv := flatten_det v1 v2 _ (idxPfx_ne_empty pfx i) hgv1 hgv2 hsplit.1
      have hr := flattenL_det r1 r2 pfx (i + 1) hgr1 hgr2 hsplit.2
      simp only [coerceL, hv, hr]
theorem flattenD_det : ∀ (fs1 fs2 : PyFields) (pfx : String),
    goodF fs1 = true → goodF fs2 = true →
    (fieldKeys fs1).Nodup → (fieldKeys fs2).Nodup →
    flattenD pfx fs1 = flattenD pfx fs2 → coerceF fs1 = coerceF fs2 := by
  intro fs1 fs2 pfx hg1 hg2 hnd1 hnd2 he
  cases fs1 with
  | nil =>
    cases fs2 with
    | nil => rfl
    | cons k2 v2 r2 =>
      exfalso
      obtain ⟨_, hgv2, _⟩ := goodF_cons hg2
      simp only [flattenD] at he
      exact flatten_ne_nil v2 _ hgv2 (List.append_eq_nil.mp he.symm).1
  | cons k1 v1 r1 =>
    cases fs2 with
    | nil =>
      exfalso
      obtain ⟨_, hgv1, _⟩ := goodF_cons hg1
      simp only [flattenD] at he
      exact flatten_ne_nil v1 _ hgv1 (List.append_eq_nil.mp he).1
    | cons k2 v2 r2 =>
      obtain ⟨hgk1, hgv1, hgr1⟩ := goodF_cons hg1
      obtain ⟨hgk2, hgv2, hgr2⟩ := goodF_cons hg2
      have hnm1 : k1 ∉ fieldKeys r1 := by
        simp only [fieldKeys, List.nodup_cons] at hnd1
        exact hnd1.1
      have hnd1b : (fieldKeys r1).Nodup := by
        simp only [fieldKeys, List.nodup_cons] at hnd1
        exact hnd1.2
      have hnm2 : k2 ∉ fieldKeys r2 := by
        simp only [fieldKeys, List.nodup_cons] at hnd2
        exact hnd2.1
      have hnd2b : (fieldKeys r2).Nodup := by
        simp only [fieldKeys, List.nodup_cons] at hnd2
        exact hnd2.2
      rw [flattenD_cons, flattenD_cons] at he
      have he2 := he
      obtain ⟨pr1, tl1, hfe1⟩ := List.exists_cons_of_ne_nil
        (flatten_ne_nil v1 (childPfx pfx k1) hgv1)
      obtain ⟨pr2, tl2, hfe2⟩ := List.exists_cons_of_ne_nil
        (flatten_ne_nil v2 (childPfx pfx k2) hgv2)
      obtain ⟨u1, hd1, hb1⟩ := flatten_paths v1 _ hgv1 (childPfx_ne_empty pfx hgk1) pr1
        (by rw [hfe1]; simp)
      obtain ⟨u2, hd2, hb2⟩ := flatten_paths v2 _ hgv2 (childPfx_ne_empty pfx hgk2) pr2
        (by rw [hfe2]; simp)
      have hheads : pr1 = pr2 := by
        rw [hfe1, hfe2] at he
        simp only [List.cons_append, List.cons.injEq] at he
        exact he.1
      have hkey : k1 = k2 :=
        key_eq_of_childPfx hgk1 hgk2 hb1 hb2 (by rw [← hd1, ← hd2, hheads])
      subst hkey
      have hsplit := append_split_pred
        (fun pr : String × String => SegPre (childPfx pfx k1) pr.1)
        (flatten (childPfx pfx k1) v1) (flattenD pfx r1)
        (flatten (childPfx pfx k1) v2) (flattenD pfx r2)
        (fun pr hpr => flatten_paths v1 _ hgv1 (childPfx_ne_empty pfx hgk1) pr hpr)
        (fun pr hpr => flatten_paths v2 _ hgv2 (childPfx_ne_empty pfx hgk1) pr hpr)
        (fun pr hpr => flattenD_not_segPre hgr1 hgk1 hnm1 pr hpr)
        (fun pr hpr => flattenD_not_segPre hgr2 hgk1 hnm2 pr hpr)
        he2
      have hv := flatten_det v1 v2 _ (childPfx_ne_empty pfx hgk1) hgv1 hgv2 hsplit.1
      have hr := flattenD_det r1 r2 pfx hgr1 hgr2 hnd1b hnd2b hsplit.2
      simp only [coerceF, hv, hr]
end

/-! ### Claim C5 (amended): the flattening determines the value -/

/-- First pair of a good value's flattening at the empty prefix: the path
is empty (scalar), bracket-headed (list), or headed by a key character
that is neither separator (dict). -/
theorem flatten_head_top : ∀ (v : PyVal), goodV v = true →
    ∃ q s rest, flatten "" v = (q, s) :: rest ∧
      ((isScalar v = true ∧ q.data = []) ∨
       (shapeTag v = 1 ∧ ∃ t2, q.data = '[' :: t2) ∨
       (shapeTag v = 2 ∧ ∃ c t2, q.data = c :: t2 ∧ c ≠ '.' ∧ c ≠ '[')) := by
  intro v hg
  cases v with
  | null => exact ⟨"", "None", [], rfl, Or.inl ⟨rfl, rfl⟩⟩
  | bool b => exact ⟨"", if b then "True" else "False", [], rfl, Or.inl ⟨rfl, rfl⟩⟩
  | int n => exact ⟨"", toString n, [], rfl, Or.inl ⟨rfl, rfl⟩⟩
  | str s => exact ⟨"", s, [], rfl, Or.inl ⟨rfl, rfl⟩⟩
  | list es =>
    obtain ⟨hne, hgl⟩ := goodV_list hg
    cases es with
    | nil => exact absurd rfl hne
    | cons v r =>
      obtain ⟨hgv, hgr⟩ := goodL_cons hgl
      obtain ⟨pr, tl, hfe⟩ := List.exists_cons_of_ne_nil
        (flatten_ne_nil v ("" ++ "[" ++ natRepr 0 ++ "]") hgv)
      obtain ⟨q, s⟩ := pr
      obtain ⟨u, hdata, hu⟩ := flatten_paths v _ hgv (idxPfx_ne_empty "" 0) (q, s)
        (by rw [hfe]; simp)
      refine ⟨q, s, tl ++ flattenL "" 1 r, ?_, Or.inr (Or.inl ⟨rfl, ?_⟩)⟩
      · simp only [flatten, flattenL, hfe, List.cons_append]
      · simp only at hdata
        rw [idxPfx_data] at hdata
        exact ⟨(natRepr 0).data ++ [']'] ++ u, by rw [hdata]; simp⟩
  | dict fs =>
    obtain ⟨hne, hnd, hgf⟩ := goodV_dict hg
    cases fs with
    | nil => exact absurd rfl hne
    | cons k v r =>
      obtain ⟨hgk, hgv, hgr⟩ := goodF_cons hgf
      obtain ⟨pr, tl, hfe⟩ := List.exists_cons_of_ne_nil
        (flatten_ne_nil v (childPfx "" k) hgv)
      obtain ⟨q, s⟩ := pr
      obtain ⟨u, hdata, hu⟩ := flatten_paths v _ hgv (childPfx_ne_empty "" hgk) (q, s)
        (by rw [hfe]; simp)
      simp only at hdata
      rw [childPfx_data_empty] at hdata
      obtain ⟨c, kt, hk⟩ := List.exists_cons_of_ne_nil
        (data_ne_empty_of_str (goodKey_ne hgk))
      have hcmem : c ∈ k.data := by rw [hk]; simp
      obtain ⟨hcd, hcb⟩ := goodKey_chars hgk c hcmem
      refine ⟨q, s, tl ++ flattenD "" r, ?_, Or.inr (Or.inr ⟨rfl, c, kt ++ u, ?_, hcd, hcb⟩)⟩
      · simp only [flatten]
        rw [flattenD_cons, hfe]
        simp only [List.cons_append]
      · rw [hdata, hk]
        simp
/-- Claim C5 (amended): for JSON values made of dicts, lists and scalars
whose dict keys are nonempty, free of `.` and `[`, and distinct, and
whose dicts and lists are nonempty, the flattening at the empty prefix
determines the value modulo string coercion of scalar leaves: equal
flattenings give equal coerced values, so reconstruction from the
(path, value) pairs is possible on this class. -/
theorem flatten_determines_value (v1 v2 : PyVal)
    (g1 : goodV v1 = true) (g2 : goodV v2 = true)
    (he : flatten "" v1 = flatten "" v2) : coerceV v1 = coerceV v2 := by
  have hsh : shapeTag v1 = shapeTag v2 := by
    obtain ⟨q1, s1, r1, hf1, hc1⟩ := flatten_head_top v1 g1
    obtain ⟨q2, s2, r2, hf2, hc2⟩ := flatten_head_top v2 g2
    rw [hf1, hf2] at he
    simp only [List.cons.injEq, Prod.mk.injEq] at he
    have hq : q1.data = q2.data := congrArg String.data he.1.1
    rcases hc1 with ⟨hs1, hq1⟩ | ⟨hs1, t1, hq1⟩ | ⟨hs1, c1, t1, hq1, hcd1, hcb1⟩ <;>
      rcases hc2 with ⟨hs2, hq2⟩ | ⟨hs2, t2, hq2⟩ | ⟨hs2, c2, t2, hq2, hcd2, hcb2⟩ <;>
        rw [hq1, hq2] at hq
    · rw [shapeTag_of_isScalar hs1, shapeTag_of_isScalar hs2]
    · simp at hq
    · simp at hq
    · simp at hq
    · rw [hs1, hs2]
    · simp only [List.cons.injEq] at hq
      exact absurd hq.1.symm hcb2
    · simp at hq
    · simp only [List.cons.injEq] at hq
      exact absurd hq.1 hcb1
    · rw [hs1, hs2]
  rcases v1 with _ | b1 | n1 | s1 | es1 | fs1 <;>
    rcases v2 with _ | b2 | n2 | s2 | es2 | fs2 <;>
      simp only [shapeTag] at hsh <;>
      try omega
  all_goals try (
    simp only [flatten, List.cons.injEq, Prod.mk.injEq, and_true, true_and] at he
    simp only [coerceV, he]
    done)
  · obtain ⟨hne1, hgl1⟩ := goodV_list g1
    obtain ⟨hne2, hgl2⟩ := goodV_list g2
    simp only [flatten] at he
    simp only [coerceV]
    rw [flattenL_det es1 es2 "" 0 hgl1 hgl2 he]
  · obtain ⟨hne1, hnd1, hgf1⟩ := goodV_dict g1
    obtain ⟨hne2, hnd2, hgf2⟩ := goodV_dict g2
    simp only [flatten] at he
    simp only [coerceV]
    rw [flattenD_det fs1 fs2 "" hgf1 hgf2 hnd1 hnd2 he]

/-- Claim C5 witness: two distinct good values with equal flattenings —
an integer leaf versus its textual form — have equal string coercions. -/
theorem flatten_determines_value_witness :
    goodV wIntLeaf = true ∧ goodV wStrLeaf = true ∧
    flatten "" wIntLeaf = flatten "" wStrLeaf ∧
    coerceV wIntLeaf = coerceV wStrLeaf ∧
    wIntLeaf ≠ wStrLeaf := by
  refine ⟨by decide, by decide, by decide, ?_, by decide⟩
  exact flatten_determines_value wIntLeaf wStrLeaf (by decide) (by decide) (by decide)
